import Mathlib

/-! SymSpell checker: dictionary trie, edit generator, distance scorer, correction engine.

Shallow embedding of `src/symspell.cpp`.

* `std::string` is a `List Char` (`Str`); `substr`, `operator+`, `operator[]`, `swap`
  become `take`/`drop`, `++`, `getD`, `set`.
* `unordered_map<K,V>` is an association list with at most one binding per key
  (`mapFind` is `find`, `mapSet` is `operator[] =`, `length` is `size`).
* `std::set<string>` is a list used only through its membership test.
* `int` frequencies are `Int` (the code never does arithmetic on them); table cells of
  the distance matrix are `Nat` (they are bounded by the longer string's length, so the
  32-bit range is not left for strings shorter than `2^31` characters); the
  `int`-to-`size_t` conversion in `results.size() < maxResults` is explicit (`toSizeT`).
-/

namespace SymSpell

/-- A C++ `std::string`. -/
abbrev Str := List Char

/-! ## Association-list maps (`unordered_map`) -/

/-- The lookup `m.find(k)`: the value bound to `k`, if any. -/
def mapFind {κ ν : Type} [DecidableEq κ] : List (κ × ν) → κ → Option ν
  | [], _ => none
  | (k', v) :: m, k => if k = k' then some v else mapFind m k

/-- The assignment `m[k] = v`: overwrite the binding of `k` or create it. -/
def mapSet {κ ν : Type} [DecidableEq κ] : List (κ × ν) → κ → ν → List (κ × ν)
  | [], k, v => [(k, v)]
  | (k', v') :: m, k, v => if k = k' then (k', v) :: m else (k', v') :: mapSet m k v

/-! ## Trie -/

/-- The struct `TrieNode`: children map, terminal flag, frequency. -/
inductive TrieNode where
  | mk (children : List (Char × TrieNode)) (isEndOfWord : Bool) (frequency : Int)

/-- The node made by `new TrieNode()`. -/
def TrieNode.fresh : TrieNode := TrieNode.mk [] false 0

/-- The walk of `Trie::insert` below a node: create missing children along `word`,
then mark the last node terminal and store the frequency there. -/
def TrieNode.insert : TrieNode → Str → Int → TrieNode
  | TrieNode.mk ch _ _, [], f => TrieNode.mk ch true f
  | TrieNode.mk ch e fr, c :: cs, f =>
    let child := match mapFind ch c with
      | none => TrieNode.fresh
      | some n => n
    TrieNode.mk (mapSet ch c (TrieNode.insert child cs f)) e fr

/-- The walk of `Trie::search` below a node. -/
def TrieNode.search : TrieNode → Str → Bool
  | TrieNode.mk _ e _, [] => e
  | TrieNode.mk ch _ _, c :: cs =>
    match mapFind ch c with
    | none => false
    | some n => TrieNode.search n cs

/-- The trie walk at the end of `Trie::getFrequency`. -/
def TrieNode.walkFrequency : TrieNode → Str → Int
  | TrieNode.mk _ e fr, [] => if e then fr else 0
  | TrieNode.mk ch _ _, c :: cs =>
    match mapFind ch c with
    | none => 0
    | some n => TrieNode.walkFrequency n cs

/-- The class `Trie`: the root node and the separate word-to-frequency map. -/
structure Trie where
  root : TrieNode
  wordFrequency : List (Str × Int)

/-- The constructor `Trie()`. -/
def Trie.empty : Trie := ⟨TrieNode.fresh, []⟩

/-- `Trie::insert(word, frequency)`. -/
def Trie.insert (t : Trie) (word : Str) (frequency : Int) : Trie :=
  ⟨TrieNode.insert t.root word frequency, mapSet t.wordFrequency word frequency⟩

/-- `Trie::search(word)`. -/
def Trie.search (t : Trie) (word : Str) : Bool :=
  TrieNode.search t.root word

/-- `Trie::getFrequency(word)`: the map entry if there is one, else the trie walk. -/
def Trie.getFrequency (t : Trie) (word : Str) : Int :=
  match mapFind t.wordFrequency word with
  | some f => f
  | none => TrieNode.walkFrequency t.root word

/-- `Trie::wordCount()`. -/
def Trie.wordCount (t : Trie) : Nat := t.wordFrequency.length

/-- A dictionary built by a sequence of `insert(word, frequency)` calls on a fresh trie. -/
def Trie.build (ops : List (Str × Int)) : Trie :=
  ops.foldl (fun t op => Trie.insert t op.1 op.2) Trie.empty

/-! ## Edit candidate generator -/

/-- The two containers of `generateEdits`: the result vector and the duplicate filter. -/
structure EditState where
  edits : List Str
  uniqueEdits : List Str

/-- The step `if (uniqueEdits.insert(edit).second) edits.push_back(edit);`. -/
def addEdit (st : EditState) (edit : Str) : EditState :=
  if edit ∈ st.uniqueEdits then st
  else ⟨st.edits ++ [edit], edit :: st.uniqueEdits⟩

/-- The characters visited by `for (char c = 'a'; c <= 'z'; c++)`. -/
def alphabet : List Char :=
  ['a', 'b', 'c', 'd', 'e', 'f', 'g', 'h', 'i', 'j', 'k', 'l', 'm',
   'n', 'o', 'p', 'q', 'r', 's', 't', 'u', 'v', 'w', 'x', 'y', 'z']

/-- The string `s.substr(0, i) + s.substr(i + 1)`. -/
def deleteAt (s : Str) (i : Nat) : Str := s.take i ++ s.drop (i + 1)

/-- The string `s` after `swap(s[i], s[i + 1])`. -/
def swapAt (s : Str) (i : Nat) : Str :=
  (s.set i (s.getD (i + 1) 'a')).set (i + 1) (s.getD i 'a')

/-- The string `s.substr(0, i) + c + s.substr(i)`. -/
def insertAt (s : Str) (i : Nat) (c : Char) : Str := s.take i ++ c :: s.drop i

/-- The deletion loop. -/
def deletionLoop (word : Str) (st : EditState) : EditState :=
  (List.range word.length).foldl (fun st i => addEdit st (deleteAt word i)) st

/-- The transposition loop, `i` from `0` up to `word.length() - 1` exclusive. -/
def transpositionLoop (word : Str) (st : EditState) : EditState :=
  (List.range (word.length - 1)).foldl (fun st i => addEdit st (swapAt word i)) st

/-- The inner substitution loop at position `i`; `base` is mutated in place. -/
def substitutionInner (word : Str) (i : Nat) (st : EditState) : EditState :=
  (alphabet.foldl
    (fun (p : Str × EditState) c =>
      if word.getD i 'a' ≠ c then
        let base := p.1.set i c
        (base, addEdit p.2 base)
      else p)
    (word, st)).2

/-- The substitution loop. -/
def substitutionLoop (word : Str) (st : EditState) : EditState :=
  (List.range word.length).foldl (fun st i => substitutionInner word i st) st

/-- The insertion loop, `i` from `0` to `word.length()` inclusive. -/
def insertionLoop (word : Str) (st : EditState) : EditState :=
  (List.range (word.length + 1)).foldl
    (fun st i => alphabet.foldl (fun st c => addEdit st (insertAt word i c)) st) st

/-- The second pass: deletions of `edits[i]` for every `i < origSize`. -/
def secondPass (st : EditState) : EditState :=
  let origSize := st.edits.length
  (List.range origSize).foldl
    (fun st i =>
      (List.range (st.edits.getD i []).length).foldl
        (fun st j => addEdit st (deleteAt (st.edits.getD i []) j)) st)
    st

/-- The function `generateEdits(word, maxDistance)`. -/
def generateEdits (word : Str) (maxDistance : Int) : List Str :=
  if word = [] then []
  else
    let st : EditState := ⟨[], []⟩
    let st := deletionLoop word st
    let st := transpositionLoop word st
    let st := substitutionLoop word st
    let st := insertionLoop word st
    let st := if maxDistance > 1 then secondPass st else st
    st.edits

/-! ## Suggestions and their priority queue -/

/-- The struct `Suggestion`. -/
structure Suggestion where
  word : Str
  frequency : Int
  editDistance : Nat
deriving DecidableEq

/-- `Suggestion::operator<`: lower priority means larger distance, then smaller frequency. -/
def Suggestion.lt (a other : Suggestion) : Bool :=
  if a.editDistance ≠ other.editDistance then
    decide (a.editDistance > other.editDistance)
  else
    decide (a.frequency < other.frequency)

/-- `priority_queue<Suggestion>::push`: the queue is kept as the list of stored elements
in push order. -/
def pqPush (pq : List Suggestion) (s : Suggestion) : List Suggestion := pq ++ [s]

/-- Scan for the greatest element under `operator<`, keeping the earliest pushed one
among equivalent elements (the C++ standard leaves that choice open). -/
def pqBest : Suggestion → List Suggestion → Suggestion
  | best, [] => best
  | best, x :: xs => if Suggestion.lt best x then pqBest x xs else pqBest best xs

/-- `priority_queue<Suggestion>::top`, `none` on an empty queue. -/
def pqTop : List Suggestion → Option Suggestion
  | [] => none
  | x :: xs => some (pqBest x xs)

/-- `priority_queue<Suggestion>::pop`: remove the element that `top` returns. -/
def pqPop (pq : List Suggestion) : List Suggestion :=
  match pqTop pq with
  | none => pq
  | some s => pq.erase s

/-! ## Distance scorer -/

/-- The matrix `vector<vector<int>> d`. -/
abbrev Table := List (List Nat)

/-- The matrix made by `vector<vector<int>> d(len1 + 1, vector<int>(len2 + 1))`. -/
def Table.zero (len1 len2 : Nat) : Table :=
  List.replicate (len1 + 1) (List.replicate (len2 + 1) 0)

/-- The read `d[i][j]`. -/
def Table.get (d : Table) (i j : Nat) : Nat := (d.getD i []).getD j 0

/-- The assignment `d[i][j] = v`. -/
def Table.set (d : Table) (i j v : Nat) : Table :=
  List.set d i ((d.getD i []).set j v)

/-- The loop `for i in 0..len1: d[i][0] = i`. -/
def initColumn (len1 : Nat) (d : Table) : Table :=
  (List.range (len1 + 1)).foldl (fun d i => Table.set d i 0 i) d

/-- The loop `for j in 0..len2: d[0][j] = j`. -/
def initRow (len2 : Nat) (d : Table) : Table :=
  (List.range (len2 + 1)).foldl (fun d j => Table.set d 0 j j) d

/-- The body of the double loop of `levenshteinDistance` at cell `(i, j)`. -/
def cellStep (s1 s2 : Str) (d : Table) (i j : Nat) : Table :=
  let cost : Nat := if s1.getD (i - 1) 'a' = s2.getD (j - 1) 'a' then 0 else 1
  let d := Table.set d i j
    (min (min (Table.get d (i - 1) j + 1) (Table.get d i (j - 1) + 1))
      (Table.get d (i - 1) (j - 1) + cost))
  if i > 1 ∧ j > 1 ∧ s1.getD (i - 1) 'a' = s2.getD (j - 2) 'a'
      ∧ s1.getD (i - 2) 'a' = s2.getD (j - 1) 'a' then
    Table.set d i j (min (Table.get d i j) (Table.get d (i - 2) (j - 2) + cost))
  else d

/-- The double loop, `i` from `1` to `len1` and `j` from `1` to `len2`. -/
def fillTable (s1 s2 : Str) (d : Table) : Table :=
  (List.range' 1 s1.length).foldl
    (fun d i => (List.range' 1 s2.length).foldl (fun d j => cellStep s1 s2 d i j) d) d

/-- The function `levenshteinDistance(s1, s2)`. -/
def levenshteinDistance (s1 s2 : Str) : Nat :=
  Table.get
    (fillTable s1 s2 (initRow s2.length (initColumn s1.length (Table.zero s1.length s2.length))))
    s1.length s2.length

/-! ## Correction engine -/

/-- The conversion of an `int` to `size_t` made by `results.size() < maxResults`. -/
def toSizeT (m : Int) : Nat := (m % 2 ^ 64).toNat

/-- The string pushed when nothing was found. -/
def noSuggestion : Str := "No suggestion".toList

/-- The loop over `edits` that fills the priority queue. -/
def collectSuggestions (t : Trie) (inputWord : Str) (edits : List Str) :
    List Suggestion :=
  edits.foldl
    (fun pq edit =>
      if Trie.search t edit then
        pqPush pq ⟨edit, Trie.getFrequency t edit, levenshteinDistance inputWord edit⟩
      else pq)
    []

/-- The loop `while (!suggestions.empty() && results.size() < maxResults)`; every
iteration pops one element, so `fuel = suggestions.size()` iterations always suffice. -/
def extractTop : Nat → List Suggestion → List Str → Nat → List Str
  | 0, _, results, _ => results
  | fuel + 1, pq, results, maxResults =>
    match pqTop pq with
    | none => results
    | some top =>
      if results.length < maxResults then
        extractTop fuel (pqPop pq) (results ++ [top.word]) maxResults
      else results

/-- The function `correctSpelling(trie, inputWord, maxResults)`. -/
def correctSpelling (t : Trie) (inputWord : Str) (maxResults : Int) : List Str :=
  if Trie.search t inputWord then [inputWord]
  else
    let edits := generateEdits inputWord 2
    let suggestions := collectSuggestions t inputWord edits
    let results := extractTop suggestions.length suggestions [] (toSizeT maxResults)
    if results = [] then [noSuggestion] else results

/-! ## Specification-side definitions -/

/-- The ranking key of a suggestion: `(editDistance, frequency)`. -/
def Suggestion.key (s : Suggestion) : Nat × Int := (s.editDistance, s.frequency)

/-- The documented ranking order on keys: distance ascending, then frequency descending. -/
def keyLE (a b : Nat × Int) : Prop := a.1 < b.1 ∨ (a.1 = b.1 ∧ b.2 ≤ a.2)

instance keyLE_decidable : DecidableRel keyLE := fun a b => by
  unfold keyLE
  exact inferInstance

/-- The queue emptied completely, in the order in which `top`/`pop` deliver the elements. -/
def drain : Nat → List Suggestion → List Suggestion
  | 0, _ => []
  | fuel + 1, pq =>
    match pqTop pq with
    | none => []
    | some top => top :: drain fuel (pqPop pq)

/-- The suggestion that `correctSpelling` builds for a candidate. -/
def mkSuggestion (t : Trie) (inputWord edit : Str) : Suggestion :=
  ⟨edit, Trie.getFrequency t edit, levenshteinDistance inputWord edit⟩

/-- The strings visited by the deletion loop on `w`, in loop order. -/
def deletions (w : Str) : List Str := (List.range w.length).map (deleteAt w)

/-- The strings visited by the transposition loop on `w`, in loop order. -/
def transpositions (w : Str) : List Str := (List.range (w.length - 1)).map (swapAt w)

/-- The strings visited by the inner substitution loop at position `i`. -/
def substitutionsAt (w : Str) (i : Nat) : List Str :=
  (alphabet.filter (fun c => decide (w.getD i 'a' ≠ c))).map (fun c => w.set i c)

/-- The strings visited by the substitution loop on `w`, in loop order. -/
def substitutions (w : Str) : List Str := (List.range w.length).flatMap (substitutionsAt w)

/-- The strings visited by the insertion loop on `w`, in loop order. -/
def insertions (w : Str) : List Str :=
  (List.range (w.length + 1)).flatMap (fun i => alphabet.map (insertAt w i))

/-- Every string visited by the four first-pass loops on `w`, in loop order. -/
def firstPass (w : Str) : List Str :=
  deletions w ++ transpositions w ++ substitutions w ++ insertions w

/-- The duplicate filter holds exactly the strings of the result vector. -/
def EditState.Inv (st : EditState) : Prop := ∀ e, e ∈ st.uniqueEdits ↔ e ∈ st.edits

/-- The state after visiting the strings `xs` in order. -/
def addAll (st : EditState) (xs : List Str) : EditState := xs.foldl addEdit st

/-- The dictionary of the end-to-end scenario: `insert("hello", 100)`,
`insert("help", 50)`, `insert("cello", 5)` on a fresh trie. -/
def helloDictionary : Trie :=
  Trie.build [("hello".toList, 100), ("help".toList, 50), ("cello".toList, 5)]

/-- The recurrence of the distance table read from the heads of two strings:
`osa (x :: xs) (y :: ys)` takes the cheapest of deleting `x`, inserting `y`, matching or
replacing `x` by `y`, and, when the two leading pairs are swapped copies of each other,
swapping them; the table holds `osa` of the reversed prefixes. -/
def osa : Str → Str → Nat
  | [], ys => ys.length
  | x :: xs, [] => (x :: xs).length
  | x :: xs, y :: ys =>
    let cost := if x = y then 0 else 1
    let best :=
      min (min (osa xs (y :: ys) + 1) (osa (x :: xs) ys + 1)) (osa xs ys + cost)
    if 0 < xs.length ∧ 0 < ys.length ∧ x = ys.headD 'a' ∧ xs.headD 'a' = y then
      min best (osa xs.tail ys.tail + cost)
    else best
termination_by xs ys => xs.length + ys.length
decreasing_by
  all_goals simp_wf
  all_goals omega

/-- An alignment of two strings of cost `n`: the strings are read left to right and every
character is deleted, inserted, kept, replaced by a different character, or swapped with
its right neighbour (a different character), each operation other than keeping costing 1;
no character takes part in two operations. -/
inductive Align : Str → Str → Nat → Prop
  | nil : Align [] [] 0
  | delete (x : Char) {xs ys : Str} {n : Nat} : Align xs ys n → Align (x :: xs) ys (n + 1)
  | insert (y : Char) {xs ys : Str} {n : Nat} : Align xs ys n → Align xs (y :: ys) (n + 1)
  | keep (x : Char) {xs ys : Str} {n : Nat} : Align xs ys n → Align (x :: xs) (x :: ys) n
  | replace (x y : Char) {xs ys : Str} {n : Nat} : x ≠ y → Align xs ys n →
      Align (x :: xs) (y :: ys) (n + 1)
  | swap (x y : Char) {xs ys : Str} {n : Nat} : x ≠ y → Align xs ys n →
      Align (x :: y :: xs) (y :: x :: ys) (n + 1)

/-- One edit operation applied anywhere in a string: delete a character, insert a
character, replace a character by a different one, or swap two adjacent characters that
differ. -/
inductive SingleEdit : Str → Str → Prop
  | delete (p : Str) (c : Char) (s : Str) : SingleEdit (p ++ c :: s) (p ++ s)
  | insert (p : Str) (c : Char) (s : Str) : SingleEdit (p ++ s) (p ++ c :: s)
  | replace (p : Str) (c c' : Char) (s : Str) : c ≠ c' →
      SingleEdit (p ++ c :: s) (p ++ c' :: s)
  | swap (p : Str) (c c' : Char) (s : Str) : c ≠ c' →
      SingleEdit (p ++ c :: c' :: s) (p ++ c' :: c :: s)

/-- A sequence of `n` single edits that transforms the first string into the second. -/
inductive EditPath : Nat → Str → Str → Prop
  | done (a : Str) : EditPath 0 a a
  | step {n : Nat} {a b c : Str} : SingleEdit a b → EditPath n b c → EditPath (n + 1) a c

/-- The table has `n + 1` rows of `m + 1` cells each. -/
def Table.Shape (d : Table) (n m : Nat) : Prop :=
  d.length = n + 1 ∧ ∀ row ∈ d, row.length = m + 1

/-- The value the finished table holds at `(i, j)`: the recurrence on the reversed
prefixes of lengths `i` and `j`. -/
def cellSpec (s1 s2 : Str) (i j : Nat) : Nat := osa (s1.take i).reverse (s2.take j).reverse

/-- The cells already written when the double loop is about to write `(a, b)`. -/
def Done (a b i j : Nat) : Prop := i = 0 ∨ j = 0 ∨ i < a ∨ (i = a ∧ j < b)

/-- The loop invariant of `levenshteinDistance`: the table is well shaped and every cell
already written holds its final value. -/
def TableInv (s1 s2 : Str) (a b : Nat) (d : Table) : Prop :=
  Table.Shape d s1.length s2.length ∧
    ∀ i j, i ≤ s1.length → j ≤ s2.length → Done a b i j → Table.get d i j = cellSpec s1 s2 i j

/-- The query `q` is obtained from the word `W` by one deletion, one adjacent swap, one
substitution by a lowercase letter, or one insertion of a lowercase letter. -/
def SingleEditQuery (W q : Str) : Prop :=
  (∃ i, i < W.length ∧ q = deleteAt W i)
  ∨ (∃ i, i + 1 < W.length ∧ q = swapAt W i)
  ∨ (∃ i c, i < W.length ∧ c ∈ alphabet ∧ q = W.set i c)
  ∨ (∃ i c, i ≤ W.length ∧ c ∈ alphabet ∧ q = insertAt W i c)

/-- The frequency argument of the last `insert` of the sequence whose word is `w`, if
there is one. -/
def lastFrequency : List (Str × Int) → Str → Option Int
  | [], _ => none
  | op :: ops, w =>
    match lastFrequency ops w with
    | some f => some f
    | none => if op.1 = w then some op.2 else none

/-- The keys of an association-list map. -/
def mapKeys {κ ν : Type} (m : List (κ × ν)) : List κ := m.map Prod.fst

/-- The node reached from `n` by following the characters of `w`, if every edge
exists. -/
def TrieNode.nodeAt : TrieNode → Str → Option TrieNode
  | n, [] => some n
  | TrieNode.mk ch _ _, c :: cs =>
    match mapFind ch c with
    | none => none
    | some n => TrieNode.nodeAt n cs

/-- The string `s` with the characters at positions `i` and `i + 1` exchanged. -/
def swapAdjacent : Str → Nat → Str
  | x :: y :: s, 0 => y :: x :: s
  | x :: s, i + 1 => x :: swapAdjacent s i
  | s, _ => s

/-- The reference set `E1(w)` of single edits of `w`: `w` without character `i`
(`i < L`), `w` with characters `i` and `i + 1` swapped (`i < L - 1`), `w` with position `i`
replaced by a letter `c` of `'a'..'z'` other than the character there (`i < L`), and `w`
with a letter `c` of `'a'..'z'` inserted at position `i` (`i ≤ L`). -/
def E1 (w x : Str) : Prop :=
  (∃ i, i < w.length ∧ x = w.eraseIdx i)
  ∨ (∃ i, i + 1 < w.length ∧ x = swapAdjacent w i)
  ∨ (∃ i c, i < w.length ∧ ('a' ≤ c ∧ c ≤ 'z') ∧ w[i]? ≠ some c ∧ x = w.set i c)
  ∨ (∃ i c, i ≤ w.length ∧ ('a' ≤ c ∧ c ≤ 'z') ∧ x = w.insertIdx i c)

/-- The body of the double loop in the standard optimal-string-alignment program: the
same as `cellStep` except that the transposition relaxation is `d[i-2][j-2] + 1`. -/
def cellStepStd (s1 s2 : Str) (d : Table) (i j : Nat) : Table :=
  let cost : Nat := if s1.getD (i - 1) 'a' = s2.getD (j - 1) 'a' then 0 else 1
  let d := Table.set d i j
    (min (min (Table.get d (i - 1) j + 1) (Table.get d i (j - 1) + 1))
      (Table.get d (i - 1) (j - 1) + cost))
  if i > 1 ∧ j > 1 ∧ s1.getD (i - 1) 'a' = s2.getD (j - 2) 'a'
      ∧ s1.getD (i - 2) 'a' = s2.getD (j - 1) 'a' then
    Table.set d i j (min (Table.get d i j) (Table.get d (i - 2) (j - 2) + 1))
  else d

/-- The double loop of the standard program. -/
def fillTableStd (s1 s2 : Str) (d : Table) : Table :=
  (List.range' 1 s1.length).foldl
    (fun d i => (List.range' 1 s2.length).foldl (fun d j => cellStepStd s1 s2 d i j) d) d

/-- The standard optimal-string-alignment distance: the dynamic program of
`levenshteinDistance` with the transposition relaxation `d[i-2][j-2] + 1`. -/
def levenshteinDistanceStd (s1 s2 : Str) : Nat :=
  Table.get
    (fillTableStd s1 s2
      (initRow s2.length (initColumn s1.length (Table.zero s1.length s2.length))))
    s1.length s2.length

/-! # Properties -/

/-! ## Ranking order -/

theorem lt_iff_not_keyLE (a b : Suggestion) :
    Suggestion.lt a b = true ↔ ¬ keyLE a.key b.key := by
  unfold Suggestion.lt keyLE Suggestion.key
  by_cases h : a.editDistance = b.editDistance
  · simp [h]
  · simp [h]
    omega

theorem keyLE_total (a b : Nat × Int) : keyLE a b ∨ keyLE b a := by
  unfold keyLE
  omega

theorem keyLE_trans {a b c : Nat × Int} (h1 : keyLE a b) (h2 : keyLE b c) : keyLE a c := by
  unfold keyLE at *
  omega

theorem keyLE_antisymm {a b : Nat × Int} (h1 : keyLE a b) (h2 : keyLE b a) : a = b := by
  unfold keyLE at *
  apply Prod.ext <;> omega

instance keyLE_isTotal : IsTotal (Nat × Int) keyLE := ⟨keyLE_total⟩

instance keyLE_isTrans : IsTrans (Nat × Int) keyLE := ⟨fun _ _ _ => keyLE_trans⟩

instance keyLE_isAntisymm : IsAntisymm (Nat × Int) keyLE := ⟨fun _ _ => keyLE_antisymm⟩

theorem pqBest_mem (b : Suggestion) (xs : List Suggestion) : pqBest b xs ∈ b :: xs := by
  induction xs generalizing b with
  | nil => simp [pqBest]
  | cons x xs ih =>
    unfold pqBest
    split
    · have := ih x
      simp only [List.mem_cons] at this ⊢
      tauto
    · have := ih b
      simp only [List.mem_cons] at this ⊢
      tauto

theorem pqBest_best (b : Suggestion) (xs : List Suggestion) :
    ∀ y ∈ b :: xs, keyLE (pqBest b xs).key y.key := by
  induction xs generalizing b with
  | nil =>
    intro y hy
    simp only [List.mem_singleton] at hy
    subst hy
    unfold pqBest keyLE
    omega
  | cons x xs ih =>
    intro y hy
    unfold pqBest
    split
    next hlt =>
      have hx := ih x
      rcases List.mem_cons.1 hy with rfl | hy
      · have h1 := hx x (List.mem_cons_self _ _)
        have h2 := (lt_iff_not_keyLE _ _).1 hlt
        rcases keyLE_total x.key y.key with h3 | h3
        · exact keyLE_trans h1 h3
        · exact absurd h3 h2
      · exact hx y hy
    next hlt =>
      have hb := ih b
      have hnb : keyLE b.key x.key := by
        by_contra hc
        exact hlt ((lt_iff_not_keyLE _ _).2 hc)
      rcases List.mem_cons.1 hy with rfl | hy
      · exact hb y (List.mem_cons_self _ _)
      · rcases List.mem_cons.1 hy with rfl | hy
        · exact keyLE_trans (hb b (List.mem_cons_self _ _)) hnb
        · exact hb y (List.mem_cons_of_mem _ hy)

theorem pqTop_eq_some {pq : List Suggestion} {s : Suggestion} (h : pqTop pq = some s) :
    s ∈ pq ∧ ∀ y ∈ pq, keyLE s.key y.key := by
  cases pq with
  | nil => simp [pqTop] at h
  | cons x xs =>
    simp only [pqTop, Option.some.injEq] at h
    subst h
    exact ⟨pqBest_mem x xs, pqBest_best x xs⟩

theorem pqPop_perm {pq : List Suggestion} {s : Suggestion} (h : pqTop pq = some s) :
    List.Perm pq (s :: pqPop pq) := by
  have hm := (pqTop_eq_some h).1
  unfold pqPop
  rw [h]
  exact List.perm_cons_erase hm

theorem pqPop_length {pq : List Suggestion} {s : Suggestion} (h : pqTop pq = some s) :
    (pqPop pq).length + 1 = pq.length := by
  have := (pqPop_perm h).length_eq
  simp only [List.length_cons] at this
  omega

theorem drain_perm (fuel : Nat) (pq : List Suggestion) (h : pq.length ≤ fuel) :
    List.Perm (drain fuel pq) pq := by
  induction fuel generalizing pq with
  | zero =>
    have : pq = [] := List.length_eq_zero.1 (Nat.le_zero.1 h)
    subst this
    simp [drain]
  | succ fuel ih =>
    unfold drain
    cases hq : pqTop pq with
    | none =>
      cases pq with
      | nil => simp
      | cons x xs => simp [pqTop] at hq
    | some top =>
      simp only
      have hl := pqPop_length hq
      have := ih (pqPop pq) (by omega)
      exact (List.Perm.cons top this).trans (pqPop_perm hq).symm

theorem drain_subset (fuel : Nat) (pq : List Suggestion) :
    ∀ y ∈ drain fuel pq, y ∈ pq := by
  induction fuel generalizing pq with
  | zero => simp [drain]
  | succ fuel ih =>
    unfold drain
    cases hq : pqTop pq with
    | none => simp
    | some top =>
      intro y hy
      simp only [List.mem_cons] at hy
      rcases hy with rfl | hy
      · exact (pqTop_eq_some hq).1
      · have := ih (pqPop pq) y hy
        exact (pqPop_perm hq).symm.subset (List.mem_cons_of_mem _ this)

theorem drain_sorted (fuel : Nat) (pq : List Suggestion) :
    List.Pairwise (fun a b => keyLE a.key b.key) (drain fuel pq) := by
  induction fuel generalizing pq with
  | zero => simp [drain]
  | succ fuel ih =>
    unfold drain
    cases hq : pqTop pq with
    | none => simp
    | some top =>
      simp only
      refine List.Pairwise.cons ?_ (ih (pqPop pq))
      intro y hy
      have h1 := drain_subset fuel (pqPop pq) y hy
      have h2 : y ∈ pq := (pqPop_perm hq).symm.subset (List.mem_cons_of_mem _ h1)
      exact (pqTop_eq_some hq).2 y h2

theorem extractTop_eq (fuel : Nat) (pq : List Suggestion) (results : List Str) (m : Nat) :
    extractTop fuel pq results m
      = results ++ ((drain fuel pq).take (m - results.length)).map Suggestion.word := by
  induction fuel generalizing pq results with
  | zero => simp [extractTop, drain]
  | succ fuel ih =>
    unfold extractTop drain
    cases hq : pqTop pq with
    | none => simp
    | some top =>
      simp only
      by_cases hlt : results.length < m
      · rw [if_pos hlt, ih]
        have : m - results.length = (m - (results ++ [top.word]).length) + 1 := by
          simp only [List.length_append, List.length_singleton]
          omega
        rw [this, List.take_succ_cons]
        simp
      · rw [if_neg hlt]
        have : m - results.length = 0 := by omega
        simp [this]

theorem collectSuggestions_aux (t : Trie) (w : Str) (edits : List Str)
    (acc : List Suggestion) :
    edits.foldl
      (fun pq edit =>
        if Trie.search t edit then
          pqPush pq ⟨edit, Trie.getFrequency t edit, levenshteinDistance w edit⟩
        else pq) acc
      = acc ++ (edits.filter (Trie.search t)).map (mkSuggestion t w) := by
  induction edits generalizing acc with
  | nil => simp
  | cons e es ih =>
    simp only [List.foldl_cons]
    rw [ih]
    by_cases h : Trie.search t e = true
    · simp [h, pqPush, mkSuggestion]
    · simp [h]

theorem collectSuggestions_eq (t : Trie) (w : Str) (edits : List Str) :
    collectSuggestions t w edits
      = (edits.filter (Trie.search t)).map (mkSuggestion t w) := by
  unfold collectSuggestions
  rw [collectSuggestions_aux]
  simp

/-! ## Correction engine -/

theorem toSizeT_of_nonneg (m : Int) (h0 : 0 ≤ m) (h1 : m < 2 ^ 31) : toSizeT m = m.toNat := by
  unfold toSizeT
  rw [Int.emod_eq_of_lt h0 (by omega)]

theorem correctSpelling_of_not_member (t : Trie) (w : Str) (m : Int)
    (h : Trie.search t w = false) :
    correctSpelling t w m =
      (if ((drain ((generateEdits w 2).filter (Trie.search t)).length
              (((generateEdits w 2).filter (Trie.search t)).map (mkSuggestion t w))).take
            (toSizeT m)).map Suggestion.word = []
        then [noSuggestion]
        else ((drain ((generateEdits w 2).filter (Trie.search t)).length
              (((generateEdits w 2).filter (Trie.search t)).map (mkSuggestion t w))).take
            (toSizeT m)).map Suggestion.word) := by
  unfold correctSpelling
  simp only [h, Bool.false_eq_true, if_false]
  rw [collectSuggestions_eq, extractTop_eq]
  simp

theorem drain_map_key_eq_sort (t : Trie) (w : Str) (S : List Str) :
    (drain S.length (S.map (mkSuggestion t w))).map Suggestion.key
      = List.insertionSort keyLE
          (S.map (fun c => (levenshteinDistance w c, Trie.getFrequency t c))) := by
  have hperm : List.Perm (drain S.length (S.map (mkSuggestion t w))) (S.map (mkSuggestion t w)) :=
    drain_perm _ _ (by simp)
  have hkeys : (S.map (mkSuggestion t w)).map Suggestion.key
      = S.map (fun c => (levenshteinDistance w c, Trie.getFrequency t c)) := by
    simp [List.map_map, Function.comp_def, mkSuggestion, Suggestion.key]
  have hsorted : List.Sorted keyLE
      ((drain S.length (S.map (mkSuggestion t w))).map Suggestion.key) := by
    unfold List.Sorted
    rw [List.pairwise_map]
    exact drain_sorted _ _
  refine List.eq_of_perm_of_sorted ?_ hsorted (List.sorted_insertionSort keyLE _)
  refine List.Perm.trans ?_ (List.perm_insertionSort keyLE _).symm
  rw [← hkeys]
  exact hperm.map _

theorem drain_word_key (t : Trie) (w : Str) (S : List Str) (n k : Nat) :
    (((drain n (S.map (mkSuggestion t w))).take k).map Suggestion.word).map
        (fun c => (levenshteinDistance w c, Trie.getFrequency t c))
      = ((drain n (S.map (mkSuggestion t w))).map Suggestion.key).take k := by
  rw [List.map_map, ← List.map_take]
  apply List.map_congr_left
  intro s hs
  have h1 : s ∈ drain n (S.map (mkSuggestion t w)) := List.mem_of_mem_take hs
  have h2 := drain_subset _ _ s h1
  obtain ⟨c, -, rfl⟩ := List.mem_map.1 h2
  simp [mkSuggestion, Suggestion.key]

/-- C1: for a dictionary built by inserts, a query that is not a member and
`1 ≤ maxResults`, if some generated candidate is a member then the `(distance, frequency)`
keys of the returned words are the first `min(maxResults, |S|)` keys of the surviving
candidates `S` sorted by distance ascending and, at equal distance, frequency descending;
in particular the returned keys are sorted in that order, so a smaller distance always
comes first and at equal distance the larger frequency comes first. -/
theorem correctSpelling_ranked_topK (ops : List (Str × Int)) (inputWord : Str)
    (maxResults : Int)
    (hnot : Trie.search (Trie.build ops) inputWord = false)
    (h1 : 1 ≤ maxResults) (h2 : maxResults < 2 ^ 31)
    (hS : (generateEdits inputWord 2).filter (Trie.search (Trie.build ops)) ≠ []) :
    (correctSpelling (Trie.build ops) inputWord maxResults).map
        (fun c => (levenshteinDistance inputWord c, Trie.getFrequency (Trie.build ops) c))
      = (List.insertionSort keyLE
          (((generateEdits inputWord 2).filter (Trie.search (Trie.build ops))).map
            (fun c => (levenshteinDistance inputWord c,
              Trie.getFrequency (Trie.build ops) c)))).take
          (min maxResults.toNat
            ((generateEdits inputWord 2).filter (Trie.search (Trie.build ops))).length)
    ∧ List.Sorted keyLE
        ((correctSpelling (Trie.build ops) inputWord maxResults).map
          (fun c => (levenshteinDistance inputWord c,
            Trie.getFrequency (Trie.build ops) c))) := by
  have hm : toSizeT maxResults = maxResults.toNat := toSizeT_of_nonneg _ (by omega) h2
  have hpos : 0 < maxResults.toNat := by omega
  generalize hSdef : (generateEdits inputWord 2).filter (Trie.search (Trie.build ops)) = S
    at hS
  have hres : correctSpelling (Trie.build ops) inputWord maxResults
      = ((drain S.length (S.map (mkSuggestion (Trie.build ops) inputWord))).take
          maxResults.toNat).map Suggestion.word := by
    rw [correctSpelling_of_not_member _ _ _ hnot, hSdef, hm]
    have hlen : (drain S.length (S.map (mkSuggestion (Trie.build ops) inputWord))).length
        = S.length := by
      rw [(drain_perm _ _ (by simp)).length_eq]
      simp
    have hne : ((drain S.length (S.map (mkSuggestion (Trie.build ops) inputWord))).take
          maxResults.toNat).map Suggestion.word ≠ [] := by
      intro hc
      have := congrArg List.length hc
      simp only [List.length_map, List.length_take, hlen, List.length_nil] at this
      have : 0 < S.length := List.length_pos.2 hS
      omega
    rw [if_neg hne]
  have hkeys : (correctSpelling (Trie.build ops) inputWord maxResults).map
        (fun c => (levenshteinDistance inputWord c, Trie.getFrequency (Trie.build ops) c))
      = (List.insertionSort keyLE
          (S.map (fun c => (levenshteinDistance inputWord c,
              Trie.getFrequency (Trie.build ops) c)))).take maxResults.toNat := by
    rw [hres, drain_word_key, drain_map_key_eq_sort]
  constructor
  · rw [hkeys]
    rw [List.take_eq_take]
    simp [List.length_insertionSort]
  · rw [hkeys]
    exact (List.sorted_insertionSort keyLE _).take

/-- C2: a word that `search` finds is returned alone, for every dictionary and every
`maxResults`. -/
theorem correctSpelling_exact_match (t : Trie) (w : Str) (maxResults : Int)
    (h : Trie.search t w = true) :
    correctSpelling t w maxResults = [w] := by
  unfold correctSpelling
  simp [h]

/-- C3: when the query is not a member and no generated candidate is a member, the
result is exactly the one-element list holding "No suggestion". -/
theorem correctSpelling_no_suggestion (t : Trie) (inputWord : Str) (maxResults : Int)
    (hnot : Trie.search t inputWord = false)
    (hnone : ∀ c ∈ generateEdits inputWord 2, Trie.search t c = false) :
    correctSpelling t inputWord maxResults = [noSuggestion] := by
  rw [correctSpelling_of_not_member _ _ _ hnot]
  have : (generateEdits inputWord 2).filter (Trie.search t) = [] := by
    rw [List.filter_eq_nil_iff]
    intro c hc
    simp [hnone c hc]
  rw [this]
  simp [drain]

/-! ## Dictionary index -/

theorem mapFind_mapSet {κ ν : Type} [DecidableEq κ] (m : List (κ × ν)) (k k' : κ) (v : ν) :
    mapFind (mapSet m k v) k' = if k' = k then some v else mapFind m k' := by
  induction m with
  | nil => simp [mapSet, mapFind]
  | cons p m ih =>
    obtain ⟨k0, v0⟩ := p
    unfold mapSet
    by_cases h : k = k0
    · subst h
      simp only [if_true, mapFind]
      by_cases h' : k' = k <;> simp [h']
    · simp only [if_neg h, mapFind, ih]
      by_cases h' : k' = k0
      · have : ¬ k0 = k := fun hc => h hc.symm
        subst h'
        simp [this]
      · simp [h']

theorem TrieNode.search_fresh (w : Str) : TrieNode.search TrieNode.fresh w = false := by
  cases w with
  | nil => rfl
  | cons c cs => simp [TrieNode.fresh, TrieNode.search, mapFind]

theorem TrieNode.search_insert (n : TrieNode) (w w' : Str) (f : Int) :
    TrieNode.search (TrieNode.insert n w f) w'
      = (decide (w' = w) || TrieNode.search n w') := by
  induction w generalizing n w' with
  | nil =>
    obtain ⟨ch, e, fr⟩ := n
    cases w' with
    | nil => simp [TrieNode.insert, TrieNode.search]
    | cons c' cs' => simp [TrieNode.insert, TrieNode.search]
  | cons c cs ih =>
    obtain ⟨ch, e, fr⟩ := n
    cases w' with
    | nil => simp [TrieNode.insert, TrieNode.search]
    | cons c' cs' =>
      simp only [TrieNode.insert, TrieNode.search, mapFind_mapSet]
      by_cases hc : c' = c
      · subst hc
        simp only [if_true, ih]
        cases hf : mapFind ch c' with
        | none => simp [TrieNode.search_fresh]
        | some n' => simp
      · simp [hc]

theorem Trie.search_after_insert (t : Trie) (w w' : Str) (f : Int) :
    Trie.search (Trie.insert t w f) w' = (decide (w' = w) || Trie.search t w') := by
  simp [Trie.search, Trie.insert, TrieNode.search_insert]

theorem Trie.search_foldl_insert (ops : List (Str × Int)) (t : Trie) (w : Str) :
    Trie.search (ops.foldl (fun t op => Trie.insert t op.1 op.2) t) w = true
      ↔ w ∈ ops.map Prod.fst ∨ Trie.search t w = true := by
  induction ops generalizing t with
  | nil => simp
  | cons op ops ih =>
    simp only [List.foldl_cons, ih, Trie.search_after_insert, List.map_cons, List.mem_cons,
      Bool.or_eq_true, decide_eq_true_eq]
    tauto

theorem Trie.search_build (ops : List (Str × Int)) (w : Str) :
    Trie.search (Trie.build ops) w = true ↔ w ∈ ops.map Prod.fst := by
  unfold Trie.build
  rw [Trie.search_foldl_insert]
  simp [Trie.search, Trie.empty, TrieNode.search_fresh]

/-! ## Edit candidate generator -/

theorem addAll_nil (st : EditState) : addAll st [] = st := rfl

theorem addAll_cons (st : EditState) (x : Str) (xs : List Str) :
    addAll st (x :: xs) = addAll (addEdit st x) xs := rfl

theorem addAll_append (st : EditState) (xs ys : List Str) :
    addAll st (xs ++ ys) = addAll (addAll st xs) ys := by
  simp [addAll, List.foldl_append]

theorem addEdit_inv {st : EditState} (h : st.Inv) (e : Str) : (addEdit st e).Inv := by
  unfold addEdit
  split
  · exact h
  · intro x
    simp only [List.mem_cons, List.mem_append, List.mem_singleton, h x]
    tauto

theorem addAll_inv {st : EditState} (h : st.Inv) (xs : List Str) : (addAll st xs).Inv := by
  induction xs generalizing st with
  | nil => exact h
  | cons x xs ih => exact ih (addEdit_inv h x)

theorem addEdit_extends (st : EditState) (e : Str) : st.edits <+: (addEdit st e).edits := by
  unfold addEdit
  split
  · exact List.prefix_refl _
  · exact List.prefix_append _ _

theorem addAll_extends (st : EditState) (xs : List Str) : st.edits <+: (addAll st xs).edits := by
  induction xs generalizing st with
  | nil => exact List.prefix_refl _
  | cons x xs ih => exact (addEdit_extends st x).trans (ih _)

theorem mem_addEdit {st : EditState} (h : st.Inv) (e x : Str) :
    x ∈ (addEdit st e).edits ↔ x ∈ st.edits ∨ x = e := by
  unfold addEdit
  split
  next hm =>
    have := (h e).1 hm
    constructor
    · exact Or.inl
    · rintro (h1 | rfl)
      · exact h1
      · exact this
  next hm => simp

theorem mem_addAll {st : EditState} (h : st.Inv) (xs : List Str) (x : Str) :
    x ∈ (addAll st xs).edits ↔ x ∈ st.edits ∨ x ∈ xs := by
  induction xs generalizing st with
  | nil => simp [addAll]
  | cons y ys ih =>
    rw [addAll_cons, ih (addEdit_inv h y), mem_addEdit h]
    simp only [List.mem_cons]
    tauto

theorem addEdit_nodup {st : EditState} (h : st.Inv) (hn : st.edits.Nodup) (e : Str) :
    (addEdit st e).edits.Nodup := by
  unfold addEdit
  split
  · exact hn
  next hm =>
    have : e ∉ st.edits := fun hc => hm ((h e).2 hc)
    rw [List.nodup_append]
    refine ⟨hn, List.nodup_singleton _, ?_⟩
    intro a ha hb
    simp only [List.mem_singleton] at hb
    subst hb
    exact this ha

theorem addAll_nodup {st : EditState} (h : st.Inv) (hn : st.edits.Nodup) (xs : List Str) :
    (addAll st xs).edits.Nodup := by
  induction xs generalizing st with
  | nil => exact hn
  | cons x xs ih => exact ih (addEdit_inv h x) (addEdit_nodup h hn x)

theorem addAll_flatMap {ι : Type} (st : EditState) (l : List ι) (g : ι → List Str) :
    addAll st (l.flatMap g) = l.foldl (fun st i => addAll st (g i)) st := by
  induction l generalizing st with
  | nil => rfl
  | cons i l ih => simp only [List.flatMap_cons, addAll_append, ih, List.foldl_cons]

theorem deletionLoop_eq (w : Str) (st : EditState) :
    deletionLoop w st = addAll st (deletions w) := by
  simp [deletionLoop, addAll, deletions, List.foldl_map]

theorem transpositionLoop_eq (w : Str) (st : EditState) :
    transpositionLoop w st = addAll st (transpositions w) := by
  simp [transpositionLoop, addAll, transpositions, List.foldl_map]

theorem substitutionInner_aux (w : Str) (i : Nat) (cs : List Char) (base : Str)
    (st : EditState) (hb : ∀ c, base.set i c = w.set i c) :
    (cs.foldl
      (fun (p : Str × EditState) c =>
        if w.getD i 'a' ≠ c then
          let base := p.1.set i c
          (base, addEdit p.2 base)
        else p)
      (base, st)).2
      = addAll st ((cs.filter (fun c => decide (w.getD i 'a' ≠ c))).map (fun c => w.set i c)) := by
  induction cs generalizing base st with
  | nil => rfl
  | cons c cs ih =>
    simp only [List.foldl_cons]
    by_cases h : w.getD i 'a' ≠ c
    · rw [if_pos h]
      rw [ih (base.set i c) (addEdit st (base.set i c))
        (fun c' => by rw [List.set_set, hb])]
      rw [List.filter_cons_of_pos (by simpa using h)]
      simp only [List.map_cons, addAll_cons, hb]
    · rw [if_neg h, ih base st hb]
      rw [List.filter_cons_of_neg (by simpa using h)]

theorem substitutionInner_eq (w : Str) (i : Nat) (st : EditState) :
    substitutionInner w i st = addAll st (substitutionsAt w i) :=
  substitutionInner_aux w i alphabet w st (fun _ => rfl)

theorem substitutionLoop_eq (w : Str) (st : EditState) :
    substitutionLoop w st = addAll st (substitutions w) := by
  unfold substitutionLoop substitutions
  rw [addAll_flatMap]
  simp only [substitutionInner_eq]

theorem insertionLoop_eq (w : Str) (st : EditState) :
    insertionLoop w st = addAll st (insertions w) := by
  unfold insertionLoop insertions
  rw [addAll_flatMap]
  simp only [addAll, List.foldl_map]

theorem firstPass_eq (w : Str) (st : EditState) :
    insertionLoop w (substitutionLoop w (transpositionLoop w (deletionLoop w st)))
      = addAll st (firstPass w) := by
  rw [insertionLoop_eq, substitutionLoop_eq, transpositionLoop_eq, deletionLoop_eq]
  simp only [firstPass, addAll_append]

theorem getD_of_extends {base l : List Str} (h : base <+: l) {i : Nat} (hi : i < base.length)
    (d : Str) : l.getD i d = base.getD i d := by
  obtain ⟨t, rfl⟩ := h
  exact List.getD_append _ _ _ _ hi

theorem secondPass_inner (base : List Str) (i : Nat) (hi : i < base.length) (js : List Nat)
    (st : EditState) (hpre : base <+: st.edits) :
    js.foldl (fun st j => addEdit st (deleteAt (st.edits.getD i []) j)) st
      = addAll st (js.map (deleteAt (base.getD i []))) := by
  induction js generalizing st with
  | nil => rfl
  | cons j js ih =>
    simp only [List.foldl_cons, List.map_cons, addAll_cons]
    rw [ih _ (hpre.trans (addEdit_extends _ _)), getD_of_extends hpre hi]

theorem secondPass_outer (base : List Str) (is : List Nat) (his : ∀ i ∈ is, i < base.length)
    (st : EditState) (hpre : base <+: st.edits) :
    is.foldl
      (fun st i =>
        (List.range (st.edits.getD i []).length).foldl
          (fun st j => addEdit st (deleteAt (st.edits.getD i []) j)) st)
      st
      = addAll st (is.flatMap (fun i => deletions (base.getD i []))) := by
  induction is generalizing st with
  | nil => rfl
  | cons i is ih =>
    have hi : i < base.length := his i (List.mem_cons_self _ _)
    simp only [List.foldl_cons, List.flatMap_cons, addAll_append]
    rw [secondPass_inner base i hi _ st hpre, getD_of_extends hpre hi]
    rw [ih (fun k hk => his k (List.mem_cons_of_mem _ hk)) _
      (hpre.trans (addAll_extends _ _))]
    rfl

theorem range_flatMap_getD (base : List Str) (g : Str → List Str) :
    (List.range base.length).flatMap (fun i => g (base.getD i [])) = base.flatMap g := by
  rw [List.flatMap_def, List.flatMap_def]
  congr 1
  apply List.ext_getElem
  · simp
  · intro n h1 h2
    simp only [List.length_map, List.length_range] at h1
    simp [List.getElem?_eq_getElem h1]

theorem secondPass_eq (st : EditState) :
    secondPass st = addAll st (st.edits.flatMap deletions) := by
  unfold secondPass
  simp only
  rw [secondPass_outer st.edits _ (fun i hi => List.mem_range.1 hi) st (List.prefix_refl _)]
  rw [range_flatMap_getD]

theorem generateEdits_two (w : Str) (hw : w ≠ []) :
    generateEdits w 2
      = (addAll (addAll ⟨[], []⟩ (firstPass w))
          ((addAll ⟨[], []⟩ (firstPass w)).edits.flatMap deletions)).edits := by
  unfold generateEdits
  simp only [if_neg hw]
  rw [firstPass_eq, if_pos (by decide), secondPass_eq]

theorem generateEdits_one (w : Str) (hw : w ≠ []) :
    generateEdits w 1 = (addAll ⟨[], []⟩ (firstPass w)).edits := by
  unfold generateEdits
  simp only [if_neg hw]
  rw [firstPass_eq, if_neg (by decide)]

theorem inv_initial : EditState.Inv ⟨[], []⟩ := fun _ => Iff.rfl

theorem mem_generateEdits_two (w : Str) (hw : w ≠ []) (x : Str) :
    x ∈ generateEdits w 2 ↔ x ∈ firstPass w ∨ ∃ e ∈ firstPass w, x ∈ deletions e := by
  rw [generateEdits_two w hw, mem_addAll (addAll_inv inv_initial _),
    mem_addAll inv_initial]
  simp only [List.not_mem_nil, false_or, List.mem_flatMap, mem_addAll inv_initial]

theorem generateEdits_nodup (w : Str) (maxDistance : Int) :
    (generateEdits w maxDistance).Nodup := by
  unfold generateEdits
  split
  · exact List.nodup_nil
  · simp only
    rw [firstPass_eq]
    split
    · rw [secondPass_eq]
      exact addAll_nodup (addAll_inv inv_initial _)
        (addAll_nodup inv_initial List.nodup_nil _) _
    · exact addAll_nodup inv_initial List.nodup_nil _

theorem length_deleteAt {s : Str} {i : Nat} (hi : i < s.length) :
    (deleteAt s i).length + 1 = s.length := by
  simp only [deleteAt, List.length_append, List.length_take, List.length_drop]
  omega

theorem length_swapAt (s : Str) (i : Nat) : (swapAt s i).length = s.length := by
  simp [swapAt]

theorem length_insertAt {s : Str} {i : Nat} (hi : i ≤ s.length) (c : Char) :
    (insertAt s i c).length = s.length + 1 := by
  simp only [insertAt, List.length_append, List.length_take, List.length_cons,
    List.length_drop]
  omega

theorem mem_deletions {w x : Str} : x ∈ deletions w ↔ ∃ i, i < w.length ∧ deleteAt w i = x := by
  simp [deletions]

theorem mem_transpositions {w x : Str} :
    x ∈ transpositions w ↔ ∃ i, i < w.length - 1 ∧ swapAt w i = x := by
  simp [transpositions]

theorem mem_substitutions {w x : Str} :
    x ∈ substitutions w ↔
      ∃ i, i < w.length ∧ ∃ c, c ∈ alphabet ∧ w.getD i 'a' ≠ c ∧ w.set i c = x := by
  simp only [substitutions, substitutionsAt, List.mem_flatMap, List.mem_range, List.mem_map,
    List.mem_filter, decide_eq_true_eq]
  constructor
  · rintro ⟨i, hi, c, ⟨hc, hne⟩, rfl⟩
    exact ⟨i, hi, c, hc, hne, rfl⟩
  · rintro ⟨i, hi, c, hc, hne, rfl⟩
    exact ⟨i, hi, c, ⟨hc, hne⟩, rfl⟩

theorem mem_insertions {w x : Str} :
    x ∈ insertions w ↔ ∃ i, i ≤ w.length ∧ ∃ c, c ∈ alphabet ∧ insertAt w i c = x := by
  simp only [insertions, List.mem_flatMap, List.mem_range, List.mem_map, Nat.lt_succ_iff]

theorem mem_firstPass {w x : Str} :
    x ∈ firstPass w ↔
      x ∈ deletions w ∨ x ∈ transpositions w ∨ x ∈ substitutions w ∨ x ∈ insertions w := by
  simp only [firstPass, List.mem_append]
  tauto

theorem length_of_mem_firstPass {w x : Str} (h : x ∈ firstPass w) :
    w.length ≤ x.length + 1 ∧ x.length ≤ w.length + 1 := by
  rcases mem_firstPass.1 h with h | h | h | h
  · obtain ⟨i, hi, rfl⟩ := mem_deletions.1 h
    have := length_deleteAt hi
    omega
  · obtain ⟨i, -, rfl⟩ := mem_transpositions.1 h
    rw [length_swapAt]
    omega
  · obtain ⟨i, -, c, -, -, rfl⟩ := mem_substitutions.1 h
    rw [List.length_set]
    omega
  · obtain ⟨i, hi, c, -, rfl⟩ := mem_insertions.1 h
    rw [length_insertAt hi]
    omega

theorem generateEdits_nil (maxDistance : Int) : generateEdits [] maxDistance = [] := by
  simp [generateEdits]

theorem length_of_mem_generateEdits {w x : Str} (h : x ∈ generateEdits w 2) :
    w.length ≤ x.length + 2 ∧ x.length ≤ w.length + 1 := by
  by_cases hw : w = []
  · subst hw
    simp [generateEdits_nil] at h
  · rcases (mem_generateEdits_two w hw x).1 h with h | ⟨e, he, hx⟩
    · have := length_of_mem_firstPass h
      omega
    · have h1 := length_of_mem_firstPass he
      obtain ⟨i, hi, rfl⟩ := mem_deletions.1 hx
      have := length_deleteAt hi
      omega

/-- The two scenarios named by C3: the dictionary holding only "cat" queried with
"xyzxyz", and the same dictionary queried with the empty string. -/
theorem correctSpelling_no_suggestion_witness :
    correctSpelling (Trie.build [("cat".toList, 1)]) "xyzxyz".toList 5 = [noSuggestion]
    ∧ correctSpelling (Trie.build [("cat".toList, 1)]) [] 5 = [noSuggestion] :=
  ⟨correctSpelling_no_suggestion (Trie.build [("cat".toList, 1)]) "xyzxyz".toList 5
      (by decide)
      (fun c hc => by
        rw [← Bool.not_eq_true, Trie.search_build]
        intro hm
        have hlen := (length_of_mem_generateEdits hc).1
        simp only [List.map_cons, List.map_nil, List.mem_singleton] at hm
        subst hm
        revert hlen
        decide),
    correctSpelling_no_suggestion (Trie.build [("cat".toList, 1)]) [] 5
      (by decide)
      (fun c hc => by simp [generateEdits_nil] at hc)⟩

theorem toSizeT_pos (m : Int) (h0 : m ≠ 0) (hlo : -(2 ^ 31) ≤ m) (hhi : m < 2 ^ 31) :
    0 < toSizeT m := by
  unfold toSizeT
  have h : (2 : Int) ^ 64 = 18446744073709551616 := by norm_num
  rw [h]
  omega

theorem drain_length (pq : List Suggestion) : (drain pq.length pq).length = pq.length :=
  (drain_perm _ _ (Nat.le_refl _)).length_eq

theorem correctSpelling_of_survivor (t : Trie) (w : Str) (m : Int)
    (hnot : Trie.search t w = false) (hm : 0 < toSizeT m)
    (hS : (generateEdits w 2).filter (Trie.search t) ≠ []) :
    correctSpelling t w m
      = ((drain ((generateEdits w 2).filter (Trie.search t)).length
            (((generateEdits w 2).filter (Trie.search t)).map (mkSuggestion t w))).take
          (toSizeT m)).map Suggestion.word := by
  rw [correctSpelling_of_not_member _ _ _ hnot]
  rw [if_neg]
  intro hc
  have h1 := congrArg List.length hc
  have h2 := drain_length (((generateEdits w 2).filter (Trie.search t)).map (mkSuggestion t w))
  simp only [List.length_map] at h2
  simp only [List.length_map, List.length_take, h2, List.length_nil] at h1
  have : 0 < ((generateEdits w 2).filter (Trie.search t)).length := List.length_pos.2 hS
  omega

theorem mem_correctSpelling_of_survivor (t : Trie) (w : Str) (m : Int)
    (hnot : Trie.search t w = false) (hm : 0 < toSizeT m)
    (hS : (generateEdits w 2).filter (Trie.search t) ≠ []) :
    ∀ x ∈ correctSpelling t w m, x ∈ generateEdits w 2 ∧ Trie.search t x = true := by
  intro x hx
  rw [correctSpelling_of_survivor t w m hnot hm hS] at hx
  obtain ⟨s, hs, rfl⟩ := List.mem_map.1 hx
  have h1 := drain_subset _ _ s (List.mem_of_mem_take hs)
  obtain ⟨c, hc, rfl⟩ := List.mem_map.1 h1
  have := List.mem_filter.1 hc
  exact ⟨this.1, this.2⟩

theorem filter_eq_singleton {l : List Str} {p : Str → Bool} {a : Str} (hn : l.Nodup)
    (ha : a ∈ l) (hp : ∀ x ∈ l, p x = true ↔ x = a) : l.filter p = [a] := by
  induction l with
  | nil => simp at ha
  | cons y ys ih =>
    rw [List.nodup_cons] at hn
    by_cases hy : y = a
    · subst hy
      have hrest : ys.filter p = [] := by
        rw [List.filter_eq_nil_iff]
        intro x hx hpx
        have := (hp x (List.mem_cons_of_mem _ hx)).1 hpx
        subst this
        exact hn.1 hx
      rw [List.filter_cons_of_pos ((hp y (List.mem_cons_self _ _)).2 rfl), hrest]
    · have hpy : ¬ p y = true := fun hc => hy ((hp y (List.mem_cons_self _ _)).1 hc)
      rw [List.filter_cons_of_neg hpy]
      refine ih hn.2 ?_ (fun x hx => hp x (List.mem_cons_of_mem _ hx))
      rcases List.mem_cons.1 ha with h | h
      · exact absurd h.symm hy
      · exact h

theorem drain_singleton (s : Suggestion) : drain 1 [s] = [s] := by
  simp [drain, pqTop, pqBest, pqPop]

theorem correctSpelling_zero (t : Trie) (w : Str) (hnot : Trie.search t w = false) :
    correctSpelling t w 0 = [noSuggestion] := by
  rw [correctSpelling_of_not_member _ _ _ hnot]
  have : toSizeT 0 = 0 := by decide
  simp [this]

theorem mem_generateEdits_of_firstPass {w x : Str} (hw : w ≠ []) (h : x ∈ firstPass w) :
    x ∈ generateEdits w 2 :=
  (mem_generateEdits_two w hw x).2 (Or.inl h)

/-- C4 fails as stated, in two ways. With `maxResults = 0` the dictionary holding "b"
queried with "a" has the surviving candidate "b", yet the result is the sentinel list; and
a dictionary that holds the string "No suggestion" itself, queried with "No sugestion",
returns that word as its only suggestion, which is the sentinel list. -/
theorem sentinel_not_distinct_counterexample :
    (Trie.search (Trie.build [("b".toList, 1)]) "a".toList = false
      ∧ (∃ c ∈ generateEdits "a".toList 2,
          Trie.search (Trie.build [("b".toList, 1)]) c = true)
      ∧ correctSpelling (Trie.build [("b".toList, 1)]) "a".toList 0 = [noSuggestion])
    ∧ (Trie.search (Trie.build [("No suggestion".toList, 1)]) "No sugestion".toList = false
      ∧ (∃ c ∈ generateEdits "No sugestion".toList 2,
          Trie.search (Trie.build [("No suggestion".toList, 1)]) c = true)
      ∧ correctSpelling (Trie.build [("No suggestion".toList, 1)]) "No sugestion".toList 5
          = [noSuggestion]) := by
  have hb : "b".toList ∈ generateEdits "a".toList 2 :=
    mem_generateEdits_of_firstPass (by decide)
      (mem_firstPass.2 (Or.inr (Or.inr (Or.inl
        (mem_substitutions.2 ⟨0, by decide, 'b', by decide, by decide, by decide⟩)))))
  have hn : "No suggestion".toList ∈ generateEdits "No sugestion".toList 2 :=
    mem_generateEdits_of_firstPass (by decide)
      (mem_firstPass.2 (Or.inr (Or.inr (Or.inr
        (mem_insertions.2 ⟨5, by decide, 'g', by decide, by decide⟩)))))
  have hnot : Trie.search (Trie.build [("No suggestion".toList, 1)]) "No sugestion".toList
      = false := by decide
  refine ⟨⟨by decide, ⟨_, hb, by decide⟩, correctSpelling_zero _ _ (by decide)⟩,
    hnot, ⟨_, hn, by decide⟩, ?_⟩
  have hS : (generateEdits "No sugestion".toList 2).filter
      (Trie.search (Trie.build [("No suggestion".toList, 1)])) = ["No suggestion".toList] :=
    filter_eq_singleton (generateEdits_nodup _ _) hn
      (fun x _ => by
        rw [Trie.search_build]
        simp)
  rw [correctSpelling_of_survivor _ _ _ hnot (by decide) (by rw [hS]; simp), hS]
  simp only [List.map_cons, List.map_nil, List.length_singleton, drain_singleton]
  rfl

/-- C4, amended: for a query that is not a member, `maxResults` other than `0`, and a
dictionary in which the string "No suggestion" is not a member, if some generated
candidate is a member then the result is not the sentinel list. -/
theorem sentinel_distinct_of_survivor (t : Trie) (inputWord : Str) (maxResults : Int)
    (hnot : Trie.search t inputWord = false)
    (hm : maxResults ≠ 0) (hlo : -(2 ^ 31) ≤ maxResults) (hhi : maxResults < 2 ^ 31)
    (hsent : Trie.search t noSuggestion = false)
    (hsurv : ∃ c ∈ generateEdits inputWord 2, Trie.search t c = true) :
    correctSpelling t inputWord maxResults ≠ [noSuggestion] := by
  obtain ⟨c, hc, hcs⟩ := hsurv
  have hS : (generateEdits inputWord 2).filter (Trie.search t) ≠ [] := by
    intro h
    have : c ∈ (generateEdits inputWord 2).filter (Trie.search t) :=
      List.mem_filter.2 ⟨hc, hcs⟩
    rw [h] at this
    simp at this
  intro heq
  have := (mem_correctSpelling_of_survivor t inputWord maxResults hnot
    (toSizeT_pos _ hm hlo hhi) hS noSuggestion (by rw [heq]; simp)).2
  rw [hsent] at this
  exact Bool.noConfusion this

/-- C4, amended, at the dictionary holding "b" queried with "a" and `maxResults = 1`. -/
theorem sentinel_distinct_of_survivor_witness :
    correctSpelling (Trie.build [("b".toList, 1)]) "a".toList 1 ≠ [noSuggestion] :=
  sentinel_distinct_of_survivor (Trie.build [("b".toList, 1)]) "a".toList 1
    (by decide) (by decide) (by decide) (by decide) (by decide)
    ⟨"b".toList,
      mem_generateEdits_of_firstPass (by decide)
        (mem_firstPass.2 (Or.inr (Or.inr (Or.inl
          (mem_substitutions.2 ⟨0, by decide, 'b', by decide, by decide, by decide⟩))))),
      by decide⟩

/-- C1 at the dictionary built by inserting "b" (7), "c" (9) and "ab" (3), queried with
"a" and `maxResults = 2`. -/
theorem correctSpelling_ranked_topK_witness :
    (correctSpelling (Trie.build [("b".toList, 7), ("c".toList, 9), ("ab".toList, 3)])
        "a".toList 2).map
        (fun c => (levenshteinDistance "a".toList c,
          Trie.getFrequency (Trie.build [("b".toList, 7), ("c".toList, 9), ("ab".toList, 3)]) c))
      = (List.insertionSort keyLE
          (((generateEdits "a".toList 2).filter
              (Trie.search (Trie.build [("b".toList, 7), ("c".toList, 9), ("ab".toList, 3)]))).map
            (fun c => (levenshteinDistance "a".toList c,
              Trie.getFrequency
                (Trie.build [("b".toList, 7), ("c".toList, 9), ("ab".toList, 3)]) c)))).take
          (min (2 : Int).toNat
            ((generateEdits "a".toList 2).filter
              (Trie.search
                (Trie.build [("b".toList, 7), ("c".toList, 9), ("ab".toList, 3)]))).length)
    ∧ List.Sorted keyLE
        ((correctSpelling (Trie.build [("b".toList, 7), ("c".toList, 9), ("ab".toList, 3)])
            "a".toList 2).map
          (fun c => (levenshteinDistance "a".toList c,
            Trie.getFrequency
              (Trie.build [("b".toList, 7), ("c".toList, 9), ("ab".toList, 3)]) c))) :=
  correctSpelling_ranked_topK [("b".toList, 7), ("c".toList, 9), ("ab".toList, 3)]
    "a".toList 2 (by decide) (by decide) (by decide)
    (fun h => by
      have hb : "b".toList ∈ (generateEdits "a".toList 2).filter
          (Trie.search (Trie.build [("b".toList, 7), ("c".toList, 9), ("ab".toList, 3)])) :=
        List.mem_filter.2
          ⟨mem_generateEdits_of_firstPass (by decide)
            (mem_firstPass.2 (Or.inr (Or.inr (Or.inl
              (mem_substitutions.2 ⟨0, by decide, 'b', by decide, by decide, by decide⟩))))),
            by decide⟩
      rw [h] at hb
      exact List.not_mem_nil _ hb)

/-- C2 at the dictionary built by inserting "cat", queried with "cat". -/
theorem correctSpelling_exact_match_witness :
    correctSpelling (Trie.build [("cat".toList, 1)]) "cat".toList 5 = ["cat".toList] :=
  correctSpelling_exact_match (Trie.build [("cat".toList, 1)]) "cat".toList 5 (by decide)

theorem filter_eq_pair {l : List Str} {p : Str → Bool} {a b : Str} (hn : l.Nodup)
    (ha : a ∈ l) (hb : b ∈ l) (hab : a ≠ b) (hp : ∀ x ∈ l, p x = true ↔ x = a ∨ x = b) :
    l.filter p = [a, b] ∨ l.filter p = [b, a] := by
  induction l with
  | nil => simp at ha
  | cons y ys ih =>
    rw [List.nodup_cons] at hn
    by_cases hya : y = a
    · subst hya
      left
      have hb' : b ∈ ys := by
        rcases List.mem_cons.1 hb with h | h
        · exact absurd h.symm hab
        · exact h
      rw [List.filter_cons_of_pos ((hp y (List.mem_cons_self _ _)).2 (Or.inl rfl))]
      rw [filter_eq_singleton hn.2 hb' (fun x hx => by
        rw [hp x (List.mem_cons_of_mem _ hx)]
        constructor
        · rintro (h | h)
          · subst h
            exact absurd hx hn.1
          · exact h
        · exact Or.inr)]
    · by_cases hyb : y = b
      · subst hyb
        right
        have ha' : a ∈ ys := by
          rcases List.mem_cons.1 ha with h | h
          · exact absurd h.symm hya
          · exact h
        rw [List.filter_cons_of_pos ((hp y (List.mem_cons_self _ _)).2 (Or.inr rfl))]
        rw [filter_eq_singleton hn.2 ha' (fun x hx => by
          rw [hp x (List.mem_cons_of_mem _ hx)]
          constructor
          · rintro (h | h)
            · exact h
            · subst h
              exact absurd hx hn.1
          · exact Or.inl)]
      · have hpy : ¬ p y = true := fun hc => by
          rcases (hp y (List.mem_cons_self _ _)).1 hc with h | h
          · exact hya h
          · exact hyb h
        rw [List.filter_cons_of_neg hpy]
        refine ih hn.2 ?_ ?_ (fun x hx => hp x (List.mem_cons_of_mem _ hx))
        · rcases List.mem_cons.1 ha with h | h
          · exact absurd h.symm hya
          · exact h
        · rcases List.mem_cons.1 hb with h | h
          · exact absurd h.symm hyb
          · exact h

theorem hello_mem_helo : "hello".toList ∈ generateEdits "helo".toList 2 :=
  mem_generateEdits_of_firstPass (by decide)
    (mem_firstPass.2 (Or.inr (Or.inr (Or.inr
      (mem_insertions.2 ⟨2, by decide, 'l', by decide, by decide⟩)))))

theorem help_mem_helo : "help".toList ∈ generateEdits "helo".toList 2 :=
  mem_generateEdits_of_firstPass (by decide)
    (mem_firstPass.2 (Or.inr (Or.inr (Or.inl
      (mem_substitutions.2 ⟨3, by decide, 'p', by decide, by decide, by decide⟩)))))

theorem cello_not_mem_helo : "cello".toList ∉ generateEdits "helo".toList 2 := by
  intro h
  rcases (mem_generateEdits_two _ (by decide) _).1 h with h | ⟨e, he, hx⟩
  · rcases mem_firstPass.1 h with h | h | h | h
    · obtain ⟨i, hi, hx⟩ := mem_deletions.1 h
      have h1 := length_deleteAt hi
      rw [hx] at h1
      revert h1
      decide
    · obtain ⟨i, -, hx⟩ := mem_transpositions.1 h
      have h1 := length_swapAt "helo".toList i
      rw [hx] at h1
      revert h1
      decide
    · obtain ⟨i, -, c, -, -, hx⟩ := mem_substitutions.1 h
      have h1 := List.length_set "helo".toList i c
      rw [hx] at h1
      revert h1
      decide
    · revert h
      decide
  · have h1 := (length_of_mem_firstPass he).2
    obtain ⟨i, hi, hx⟩ := mem_deletions.1 hx
    have h2 := length_deleteAt hi
    rw [hx] at h2
    have h3 : "cello".toList.length = 5 := by decide
    have h4 : "helo".toList.length = 4 := by decide
    omega

theorem helo_survivors :
    (generateEdits "helo".toList 2).filter (Trie.search helloDictionary)
        = ["hello".toList, "help".toList]
      ∨ (generateEdits "helo".toList 2).filter (Trie.search helloDictionary)
        = ["help".toList, "hello".toList] := by
  refine filter_eq_pair (generateEdits_nodup _ _) hello_mem_helo help_mem_helo (by decide) ?_
  intro x hx
  unfold helloDictionary
  rw [Trie.search_build]
  simp only [List.map_cons, List.map_nil, List.mem_cons, List.mem_singleton, List.not_mem_nil,
    or_false]
  constructor
  · rintro (h | h | h)
    · exact Or.inl h
    · exact Or.inr h
    · subst h
      exact absurd hx cello_not_mem_helo
  · rintro (h | h)
    · exact Or.inl h
    · exact Or.inr (Or.inl h)

theorem helo_result :
    correctSpelling helloDictionary "helo".toList 3 = ["hello".toList, "help".toList] := by
  have hnot : Trie.search helloDictionary "helo".toList = false := by decide
  rcases helo_survivors with hS | hS
  · rw [correctSpelling_of_survivor _ _ _ hnot (by decide) (by rw [hS]; simp), hS]
    decide
  · rw [correctSpelling_of_survivor _ _ _ hnot (by decide) (by rw [hS]; simp), hS]
    decide

/-- C5 fails as stated: in the scenario the distance from "helo" to "help" is 1, not 2,
"cello" is not among the generated candidates, and the result is not the claimed list of
three words. -/
theorem helo_scenario_counterexample :
    levenshteinDistance "helo".toList "help".toList ≠ 2
    ∧ "cello".toList ∉ generateEdits "helo".toList 2
    ∧ correctSpelling helloDictionary "helo".toList 3
        ≠ ["hello".toList, "help".toList, "cello".toList] := by
  refine ⟨by decide, cello_not_mem_helo, ?_⟩
  rw [helo_result]
  decide

/-- C5, amended: for the dictionary built by `insert("hello",100)`, `insert("help",50)`,
`insert("cello",5)`, the candidates of "helo" contain "hello" and "help" but not "cello";
the distances from "helo" are 1 to "hello", 1 to "help" and 2 to "cello"; and
`correctSpelling(dict, "helo", 3)` returns exactly `["hello", "help"]`. -/
theorem helo_scenario :
    "hello".toList ∈ generateEdits "helo".toList 2
    ∧ "help".toList ∈ generateEdits "helo".toList 2
    ∧ "cello".toList ∉ generateEdits "helo".toList 2
    ∧ levenshteinDistance "helo".toList "hello".toList = 1
    ∧ levenshteinDistance "helo".toList "help".toList = 1
    ∧ levenshteinDistance "helo".toList "cello".toList = 2
    ∧ correctSpelling helloDictionary "helo".toList 3 = ["hello".toList, "help".toList] :=
  ⟨hello_mem_helo, help_mem_helo, cello_not_mem_helo, by decide, by decide, by decide,
    helo_result⟩

/-! ## Distance scorer: the recurrence and alignments -/

theorem osa_nil_left (ys : Str) : osa [] ys = ys.length := by
  rw [osa]

theorem osa_nil_right (xs : Str) : osa xs [] = xs.length := by
  cases xs with
  | nil => rw [osa]
  | cons x xs => rw [osa]

theorem osa_cons_cons (x y : Char) (xs ys : Str) :
    osa (x :: xs) (y :: ys) =
      if 0 < xs.length ∧ 0 < ys.length ∧ x = ys.headD 'a' ∧ xs.headD 'a' = y then
        min (min (min (osa xs (y :: ys) + 1) (osa (x :: xs) ys + 1))
          (osa xs ys + if x = y then 0 else 1))
          (osa xs.tail ys.tail + if x = y then 0 else 1)
      else
        min (min (osa xs (y :: ys) + 1) (osa (x :: xs) ys + 1))
          (osa xs ys + if x = y then 0 else 1) := by
  rw [osa]

theorem osa_le_delete (x : Char) (xs ys : Str) : osa (x :: xs) ys ≤ osa xs ys + 1 := by
  cases ys with
  | nil => simp [osa_nil_right]
  | cons y ys =>
    rw [osa_cons_cons]
    split <;> omega

theorem osa_le_insert (y : Char) (xs ys : Str) : osa xs (y :: ys) ≤ osa xs ys + 1 := by
  cases xs with
  | nil => simp [osa_nil_left]
  | cons x xs =>
    rw [osa_cons_cons]
    split <;> omega

theorem osa_le_keep (x : Char) (xs ys : Str) : osa (x :: xs) (x :: ys) ≤ osa xs ys := by
  rw [osa_cons_cons]
  simp only [if_true]
  split <;> omega

theorem osa_le_replace (x y : Char) (xs ys : Str) :
    osa (x :: xs) (y :: ys) ≤ osa xs ys + 1 := by
  rw [osa_cons_cons]
  split <;> split <;> omega

theorem osa_le_swap (x y : Char) (xs ys : Str) :
    osa (x :: y :: xs) (y :: x :: ys) ≤ osa xs ys + 1 := by
  rw [osa_cons_cons]
  rw [if_pos (by simp)]
  simp only [List.tail_cons]
  split <;> omega

theorem osa_le_of_align {xs ys : Str} {n : Nat} (h : Align xs ys n) : osa xs ys ≤ n := by
  induction h with
  | nil => simp [osa_nil_left]
  | delete x _ ih => exact (osa_le_delete x _ _).trans (Nat.succ_le_succ ih)
  | insert y _ ih => exact (osa_le_insert y _ _).trans (Nat.succ_le_succ ih)
  | keep x _ ih => exact (osa_le_keep x _ _).trans ih
  | replace x y _ _ ih => exact (osa_le_replace x y _ _).trans (Nat.succ_le_succ ih)
  | swap x y _ _ ih => exact (osa_le_swap x y _ _).trans (Nat.succ_le_succ ih)

theorem align_nil_left (ys : Str) : Align [] ys ys.length := by
  induction ys with
  | nil => exact Align.nil
  | cons y ys ih => exact Align.insert y ih

theorem align_nil_right (xs : Str) : Align xs [] xs.length := by
  induction xs with
  | nil => exact Align.nil
  | cons x xs ih => exact Align.delete x ih

theorem align_refl (xs : Str) : Align xs xs 0 := by
  induction xs with
  | nil => exact Align.nil
  | cons x xs ih => exact Align.keep x ih

theorem align_match_or_replace (x y : Char) {xs ys : Str} {n : Nat} (h : Align xs ys n) :
    Align (x :: xs) (y :: ys) (n + if x = y then 0 else 1) := by
  by_cases hxy : x = y
  · subst hxy
    simpa using Align.keep x h
  · simpa [hxy] using Align.replace x y hxy h

theorem align_swap_or_keep (x y : Char) {xs ys : Str} {n : Nat} (h : Align xs ys n) :
    Align (x :: y :: xs) (y :: x :: ys) (n + if x = y then 0 else 1) := by
  by_cases hxy : x = y
  · subst hxy
    simpa using Align.keep x (Align.keep x h)
  · simpa [hxy] using Align.swap x y hxy h

theorem align_osa : ∀ (xs ys : Str), Align xs ys (osa xs ys)
  | [], ys => by
    rw [osa_nil_left]
    exact align_nil_left ys
  | x :: xs, [] => by
    rw [osa_nil_right]
    exact align_nil_right _
  | x :: xs, y :: ys => by
    have h1 := Align.delete x (align_osa xs (y :: ys))
    have h2 := Align.insert y (align_osa (x :: xs) ys)
    have h3 := align_match_or_replace x y (align_osa xs ys)
    have hbest : Align (x :: xs) (y :: ys)
        (min (min (osa xs (y :: ys) + 1) (osa (x :: xs) ys + 1))
          (osa xs ys + if x = y then 0 else 1)) :=
      min_rec' (Align (x :: xs) (y :: ys)) (min_rec' (Align (x :: xs) (y :: ys)) h1 h2) h3
    rw [osa_cons_cons]
    split
    next hc =>
      obtain ⟨hx, hy, hxy, hyx⟩ := hc
      refine min_rec' (Align (x :: xs) (y :: ys)) hbest ?_
      cases xs with
      | nil => simp at hx
      | cons x' xs' =>
        cases ys with
        | nil => simp at hy
        | cons y' ys' =>
          simp only [List.headD_cons] at hxy hyx
          subst hxy hyx
          exact align_swap_or_keep _ _ (align_osa xs' ys')
    next => exact hbest
termination_by xs ys => xs.length + ys.length
decreasing_by
  all_goals simp_wf
  all_goals omega

theorem osa_le_iff (xs ys : Str) (n : Nat) : osa xs ys ≤ n ↔ ∃ m, m ≤ n ∧ Align xs ys m :=
  ⟨fun h => ⟨_, h, align_osa xs ys⟩, fun ⟨_, hm, ha⟩ => (osa_le_of_align ha).trans hm⟩

theorem align_symm {xs ys : Str} {n : Nat} (h : Align xs ys n) : Align ys xs n := by
  induction h with
  | nil => exact Align.nil
  | delete x _ ih => exact Align.insert x ih
  | insert y _ ih => exact Align.delete y ih
  | keep x _ ih => exact Align.keep x ih
  | replace x y hxy _ ih => exact Align.replace y x (Ne.symm hxy) ih
  | swap x y hxy _ ih => exact Align.swap y x (Ne.symm hxy) ih

theorem align_append {xs ys : Str} {n : Nat} (h : Align xs ys n) {us vs : Str} {m : Nat}
    (h' : Align us vs m) : Align (xs ++ us) (ys ++ vs) (n + m) := by
  induction h with
  | nil => simpa using h'
  | @delete x xs ys n _ ih =>
    have := Align.delete x ih
    rwa [Nat.add_right_comm] at this
  | @insert y xs ys n _ ih =>
    have := Align.insert y ih
    rwa [Nat.add_right_comm] at this
  | keep x _ ih => exact Align.keep x ih
  | @replace x y xs ys n hxy _ ih =>
    have := Align.replace x y hxy ih
    rwa [Nat.add_right_comm] at this
  | @swap x y xs ys n hxy _ ih =>
    have := Align.swap x y hxy ih
    rwa [Nat.add_right_comm] at this

theorem align_reverse {xs ys : Str} {n : Nat} (h : Align xs ys n) :
    Align xs.reverse ys.reverse n := by
  induction h with
  | nil => exact Align.nil
  | delete x _ ih =>
    simpa using align_append ih (Align.delete x Align.nil)
  | insert y _ ih =>
    simpa using align_append ih (Align.insert y Align.nil)
  | keep x _ ih =>
    simpa using align_append ih (Align.keep x Align.nil)
  | replace x y hxy _ ih =>
    simpa using align_append ih (Align.replace x y hxy Align.nil)
  | swap x y hxy _ ih =>
    simpa using align_append ih (Align.swap y x (Ne.symm hxy) Align.nil)

theorem eq_of_align_zero {xs ys : Str} {n : Nat} (h : Align xs ys n) (hn : n = 0) :
    xs = ys := by
  induction h with
  | nil => rfl
  | delete x _ ih => omega
  | insert y _ ih => omega
  | keep x _ ih => rw [ih hn]
  | replace x y _ _ ih => omega
  | swap x y _ _ ih => omega

theorem osa_symm (xs ys : Str) : osa xs ys = osa ys xs :=
  Nat.le_antisymm (osa_le_of_align (align_symm (align_osa ys xs)))
    (osa_le_of_align (align_symm (align_osa xs ys)))

theorem osa_reverse (xs ys : Str) : osa xs.reverse ys.reverse = osa xs ys := by
  apply Nat.le_antisymm
  · exact osa_le_of_align (align_reverse (align_osa xs ys))
  · have := osa_le_of_align (align_reverse (align_osa xs.reverse ys.reverse))
    simpa using this

theorem osa_eq_zero_iff (xs ys : Str) : osa xs ys = 0 ↔ xs = ys := by
  constructor
  · intro h
    exact eq_of_align_zero (align_osa xs ys) h
  · rintro rfl
    exact Nat.le_zero.1 (osa_le_of_align (align_refl xs))

/-! ## Distance scorer: the table computes the recurrence -/

theorem Table.shape_zero (n m : Nat) : Table.Shape (Table.zero n m) n m := by
  constructor
  · simp [Table.zero]
  · intro row hrow
    have := List.eq_of_mem_replicate hrow
    subst this
    simp

theorem Table.shape_set {d : Table} {n m : Nat} (hs : Table.Shape d n m) (i j v : Nat) :
    Table.Shape (Table.set d i j v) n m := by
  constructor
  · simp [Table.set, hs.1]
  · intro row hrow
    unfold Table.set at hrow
    rcases List.mem_or_eq_of_mem_set hrow with h | h
    · exact hs.2 row h
    · subst h
      rw [List.length_set]
      by_cases hi : i < d.length
      · rw [List.getD_eq_getElem _ _ hi]
        exact hs.2 _ (List.getElem_mem _)
      · have hrow' := hrow
        rw [List.set_eq_of_length_le (by omega)] at hrow'
        exact (List.length_set _ _ _) ▸ hs.2 _ hrow'

theorem getD_set_eq {α : Type} (l : List α) (i k : Nat) (a dflt : α) (hi : i < l.length) :
    (l.set i a).getD k dflt = if k = i then a else l.getD k dflt := by
  simp only [List.getD_eq_getElem?_getD, List.getElem?_set]
  by_cases h : i = k
  · subst h
    simp [hi]
  · have h' : ¬ k = i := fun hc => h hc.symm
    simp [h, h']

theorem Table.get_set {d : Table} {n m : Nat} (hs : Table.Shape d n m) {i j : Nat}
    (hi : i ≤ n) (hj : j ≤ m) (v i' j' : Nat) :
    Table.get (Table.set d i j v) i' j'
      = if i' = i ∧ j' = j then v else Table.get d i' j' := by
  have hil : i < d.length := by
    rw [hs.1]
    omega
  have hrl : (d.getD i []).length = m + 1 := by
    rw [List.getD_eq_getElem _ _ hil]
    exact hs.2 _ (List.getElem_mem _)
  unfold Table.get Table.set
  rw [getD_set_eq d i i' _ [] hil]
  by_cases h1 : i' = i
  · subst h1
    rw [if_pos rfl, getD_set_eq _ j j' v 0 (by omega)]
    by_cases h2 : j' = j <;> simp [h2]
  · simp [h1]

theorem foldl_range_invariant {σ : Type} (P : Nat → σ → Prop) (f : σ → Nat → σ) (k : Nat)
    (d : σ) (h0 : P 0 d) (hstep : ∀ i d, i < k → P i d → P (i + 1) (f d i)) :
    P k ((List.range k).foldl f d) := by
  induction k with
  | zero => simpa using h0
  | succ k ih =>
    rw [List.range_succ, List.foldl_append]
    simp only [List.foldl_cons, List.foldl_nil]
    exact hstep k _ (Nat.lt_succ_self k)
      (ih (fun i d hi hp => hstep i d (Nat.lt_succ_of_lt hi) hp))

theorem foldl_range'_invariant {σ : Type} (P : Nat → σ → Prop) (f : σ → Nat → σ) (k : Nat)
    (d : σ) (h0 : P 0 d) (hstep : ∀ i d, i < k → P i d → P (i + 1) (f d (i + 1))) :
    P k ((List.range' 1 k).foldl f d) := by
  induction k with
  | zero => simpa using h0
  | succ k ih =>
    rw [List.range'_1_concat, List.foldl_append]
    simp only [List.foldl_cons, List.foldl_nil]
    rw [Nat.add_comm 1 k]
    exact hstep k _ (Nat.lt_succ_self k)
      (ih (fun i d hi hp => hstep i d (Nat.lt_succ_of_lt hi) hp))

theorem initColumn_spec {d : Table} {n m : Nat} (hs : Table.Shape d n m) :
    Table.Shape (initColumn n d) n m ∧ ∀ i, i ≤ n → Table.get (initColumn n d) i 0 = i := by
  have := foldl_range_invariant
    (fun k d => Table.Shape d n m ∧ ∀ i, i < k → Table.get d i 0 = i)
    (fun d i => Table.set d i 0 i) (n + 1) d ⟨hs, fun i hi => absurd hi (Nat.not_lt_zero i)⟩
    (fun k d hk hp => by
      refine ⟨Table.shape_set hp.1 _ _ _, fun i hi => ?_⟩
      rw [Table.get_set hp.1 (by omega) (Nat.zero_le m)]
      by_cases h : i = k
      · simp [h]
      · simp only [h, false_and, if_false]
        exact hp.2 i (by omega))
  exact ⟨this.1, fun i hi => this.2 i (by omega)⟩

theorem initRow_spec {d : Table} {n m : Nat} (hs : Table.Shape d n m)
    (hcol : ∀ i, i ≤ n → Table.get d i 0 = i) :
    Table.Shape (initRow m d) n m
      ∧ (∀ i, i ≤ n → Table.get (initRow m d) i 0 = i)
      ∧ ∀ j, j ≤ m → Table.get (initRow m d) 0 j = j := by
  have := foldl_range_invariant
    (fun k d => Table.Shape d n m ∧ (∀ i, i ≤ n → Table.get d i 0 = i)
      ∧ ∀ j, j < k → Table.get d 0 j = j)
    (fun d j => Table.set d 0 j j) (m + 1) d
    ⟨hs, hcol, fun j hj => absurd hj (Nat.not_lt_zero j)⟩
    (fun k d hk hp => by
      refine ⟨Table.shape_set hp.1 _ _ _, fun i hi => ?_, fun j hj => ?_⟩
      · rw [Table.get_set hp.1 (Nat.zero_le n) (by omega)]
        by_cases h : i = 0 ∧ 0 = k
        · rw [if_pos h]
          omega
        · rw [if_neg h]
          exact hp.2.1 i hi
      · rw [Table.get_set hp.1 (Nat.zero_le n) (by omega)]
        by_cases h : j = k
        · simp [h]
        · simp only [h, and_false, if_false]
          exact hp.2.2 j (by omega))
  exact ⟨this.1, this.2.1, fun j hj => this.2.2 j (by omega)⟩

theorem cellSpec_zero_right (s1 s2 : Str) (i : Nat) (hi : i ≤ s1.length) :
    cellSpec s1 s2 i 0 = i := by
  simp [cellSpec, osa_nil_right, hi]

theorem cellSpec_zero_left (s1 s2 : Str) (j : Nat) (hj : j ≤ s2.length) :
    cellSpec s1 s2 0 j = j := by
  simp [cellSpec, osa_nil_left, hj]

theorem tableInv_init (s1 s2 : Str) :
    TableInv s1 s2 1 1
      (initRow s2.length (initColumn s1.length (Table.zero s1.length s2.length))) := by
  have h1 := initColumn_spec (Table.shape_zero s1.length s2.length)
  have h2 := initRow_spec h1.1 h1.2
  refine ⟨h2.1, fun i j hi hj hd => ?_⟩
  by_cases h0 : i = 0
  · subst h0
    rw [h2.2.2 j hj, cellSpec_zero_left _ _ _ hj]
  · have hj0 : j = 0 := by
      unfold Done at hd
      omega
    subst hj0
    rw [h2.2.1 i hi, cellSpec_zero_right _ _ _ hi]

theorem reverse_take_succ (s : Str) (i : Nat) (hi : i < s.length) :
    (s.take (i + 1)).reverse = s.getD i 'a' :: (s.take i).reverse := by
  rw [List.take_succ, List.getElem?_eq_getElem hi, List.getD_eq_getElem _ _ hi]
  simp

theorem cellSpec_succ (s1 s2 : Str) (i j : Nat) (hi : i < s1.length) (hj : j < s2.length) :
    cellSpec s1 s2 (i + 1) (j + 1) =
      if 0 < i ∧ 0 < j ∧ s1.getD i 'a' = s2.getD (j - 1) 'a'
          ∧ s1.getD (i - 1) 'a' = s2.getD j 'a' then
        min (min (min (cellSpec s1 s2 i (j + 1) + 1) (cellSpec s1 s2 (i + 1) j + 1))
          (cellSpec s1 s2 i j + if s1.getD i 'a' = s2.getD j 'a' then 0 else 1))
          (cellSpec s1 s2 (i - 1) (j - 1) + if s1.getD i 'a' = s2.getD j 'a' then 0 else 1)
      else
        min (min (cellSpec s1 s2 i (j + 1) + 1) (cellSpec s1 s2 (i + 1) j + 1))
          (cellSpec s1 s2 i j + if s1.getD i 'a' = s2.getD j 'a' then 0 else 1) := by
  unfold cellSpec
  rw [reverse_take_succ s1 i hi, reverse_take_succ s2 j hj, osa_cons_cons]
  have hli : (s1.take i).reverse.length = i := by
    rw [List.length_reverse, List.length_take]
    omega
  have hlj : (s2.take j).reverse.length = j := by
    rw [List.length_reverse, List.length_take]
    omega
  rw [hli, hlj]
  by_cases hpos : 0 < i ∧ 0 < j
  · obtain ⟨i', rfl⟩ : ∃ i', i = i' + 1 := ⟨i - 1, by omega⟩
    obtain ⟨j', rfl⟩ : ∃ j', j = j' + 1 := ⟨j - 1, by omega⟩
    rw [reverse_take_succ s1 i' (by omega), reverse_take_succ s2 j' (by omega)]
    simp only [List.headD_cons, List.tail_cons, Nat.add_sub_cancel]
  · have hc1 : ¬ (0 < i ∧ 0 < j ∧ s1.getD i 'a' = ((s2.take j).reverse).headD 'a'
        ∧ ((s1.take i).reverse).headD 'a' = s2.getD j 'a') := fun h => hpos ⟨h.1, h.2.1⟩
    have hc2 : ¬ (0 < i ∧ 0 < j ∧ s1.getD i 'a' = s2.getD (j - 1) 'a'
        ∧ s1.getD (i - 1) 'a' = s2.getD j 'a') := fun h => hpos ⟨h.1, h.2.1⟩
    rw [if_neg hc1, if_neg hc2]

theorem done_succ (a b i j : Nat) : Done a (b + 1) i j ↔ Done a b i j ∨ (i = a ∧ j = b) := by
  unfold Done
  omega

theorem cellStep_spec (s1 s2 : Str) (i j : Nat) (hi : i < s1.length) (hj : j < s2.length)
    (d : Table) (h : TableInv s1 s2 (i + 1) (j + 1) d) :
    TableInv s1 s2 (i + 1) (j + 2) (cellStep s1 s2 d (i + 1) (j + 1)) := by
  obtain ⟨hs, hv⟩ := h
  have e1 : Table.get d i (j + 1) = cellSpec s1 s2 i (j + 1) :=
    hv _ _ (by omega) (by omega) (by unfold Done; omega)
  have e2 : Table.get d (i + 1) j = cellSpec s1 s2 (i + 1) j :=
    hv _ _ (by omega) (by omega) (by unfold Done; omega)
  have e3 : Table.get d i j = cellSpec s1 s2 i j :=
    hv _ _ (by omega) (by omega) (by unfold Done; omega)
  have e4 : Table.get d (i - 1) (j - 1) = cellSpec s1 s2 (i - 1) (j - 1) :=
    hv _ _ (by omega) (by omega) (by unfold Done; omega)
  have hval : Table.get (cellStep s1 s2 d (i + 1) (j + 1)) (i + 1) (j + 1)
      = cellSpec s1 s2 (i + 1) (j + 1)
      ∧ Table.Shape (cellStep s1 s2 d (i + 1) (j + 1)) s1.length s2.length
      ∧ ∀ i' j', ¬ (i' = i + 1 ∧ j' = j + 1) →
          Table.get (cellStep s1 s2 d (i + 1) (j + 1)) i' j' = Table.get d i' j' := by
    rw [cellSpec_succ s1 s2 i j hi hj]
    unfold cellStep
    simp only [Nat.add_sub_cancel, Nat.reduceSubDiff, gt_iff_lt, Nat.lt_add_left_iff_pos]
    have hs1 := Table.shape_set hs (i + 1) (j + 1)
      (min (min (Table.get d i (j + 1) + 1) (Table.get d (i + 1) j + 1))
        (Table.get d i j + if s1.getD i 'a' = s2.getD j 'a' then 0 else 1))
    have g1 : ∀ v, Table.get (Table.set d (i + 1) (j + 1) v) (i + 1) (j + 1) = v := by
      intro v
      rw [Table.get_set hs (by omega) (by omega), if_pos ⟨rfl, rfl⟩]
    have g2 : ∀ v, Table.get (Table.set d (i + 1) (j + 1) v) (i - 1) (j - 1)
        = Table.get d (i - 1) (j - 1) := by
      intro v
      rw [Table.get_set hs (by omega) (by omega), if_neg (by omega)]
    split
    next hc =>
      refine ⟨?_, Table.shape_set hs1 _ _ _, fun i' j' hne => ?_⟩
      · rw [Table.get_set hs1 (by omega) (by omega) _ (i + 1) (j + 1), if_pos ⟨rfl, rfl⟩,
          g1, g2, e1, e2, e3, e4]
      · rw [Table.get_set hs1 (by omega) (by omega), if_neg hne,
          Table.get_set hs (by omega) (by omega), if_neg hne]
    next hc =>
      refine ⟨?_, hs1, fun i' j' hne => ?_⟩
      · rw [g1, e1, e2, e3]
      · rw [Table.get_set hs (by omega) (by omega), if_neg hne]
  refine ⟨hval.2.1, fun i' j' hi' hj' hd => ?_⟩
  rcases (done_succ _ _ _ _).1 hd with hd | ⟨rfl, rfl⟩
  · rw [hval.2.2 i' j' (by unfold Done at hd; omega)]
    exact hv i' j' hi' hj' hd
  · exact hval.1

theorem fillTable_spec (s1 s2 : Str) (d : Table) (h : TableInv s1 s2 1 1 d) :
    TableInv s1 s2 (s1.length + 1) 1 (fillTable s1 s2 d) := by
  unfold fillTable
  refine foldl_range'_invariant (fun k d => TableInv s1 s2 (k + 1) 1 d) _ s1.length d h ?_
  intro i d hi hp
  have hrow := foldl_range'_invariant (fun k d => TableInv s1 s2 (i + 1) (k + 1) d)
    (fun d j => cellStep s1 s2 d (i + 1) j) s2.length d hp
    (fun j d hj hq => cellStep_spec s1 s2 i j hi hj d hq)
  refine ⟨hrow.1, fun i' j' hi' hj' hd => hrow.2 i' j' hi' hj' ?_⟩
  unfold Done at hd ⊢
  omega

theorem levenshteinDistance_eq_osa (s1 s2 : Str) : levenshteinDistance s1 s2 = osa s1 s2 := by
  unfold levenshteinDistance
  have h := fillTable_spec s1 s2 _ (tableInv_init s1 s2)
  rw [h.2 s1.length s2.length (Nat.le_refl _) (Nat.le_refl _) (by unfold Done; omega)]
  unfold cellSpec
  rw [List.take_length, List.take_length, osa_reverse]

/-! ## Distance scorer: edit sequences -/

theorem singleEdit_cons (x : Char) {a b : Str} (h : SingleEdit a b) :
    SingleEdit (x :: a) (x :: b) := by
  cases h with
  | delete p c s => exact SingleEdit.delete (x :: p) c s
  | insert p c s => exact SingleEdit.insert (x :: p) c s
  | replace p c c' s hne => exact SingleEdit.replace (x :: p) c c' s hne
  | swap p c c' s hne => exact SingleEdit.swap (x :: p) c c' s hne

theorem editPath_cons (x : Char) {n : Nat} {a b : Str} (h : EditPath n a b) :
    EditPath n (x :: a) (x :: b) := by
  induction h with
  | done a => exact EditPath.done _
  | step hs _ ih => exact EditPath.step (singleEdit_cons x hs) ih

theorem editPath_of_align {xs ys : Str} {n : Nat} (h : Align xs ys n) : EditPath n xs ys := by
  induction h with
  | nil => exact EditPath.done _
  | @delete x xs ys n _ ih => exact EditPath.step (SingleEdit.delete [] x xs) ih
  | @insert y xs ys n _ ih =>
    exact EditPath.step (SingleEdit.insert [] y xs) (editPath_cons y ih)
  | keep x _ ih => exact editPath_cons x ih
  | @replace x y xs ys n hxy _ ih =>
    exact EditPath.step (SingleEdit.replace [] x y xs hxy) (editPath_cons y ih)
  | @swap x y xs ys n hxy _ ih =>
    exact EditPath.step (SingleEdit.swap [] x y xs hxy)
      (editPath_cons y (editPath_cons x ih))

theorem align_of_singleEdit {a b : Str} (h : SingleEdit a b) : Align a b 1 := by
  cases h with
  | delete p c s =>
    simpa using align_append (align_refl p) (Align.delete c (align_refl s))
  | insert p c s =>
    simpa using align_append (align_refl p) (Align.insert c (align_refl s))
  | replace p c c' s hne =>
    simpa using align_append (align_refl p) (Align.replace c c' hne (align_refl s))
  | swap p c c' s hne =>
    simpa using align_append (align_refl p) (Align.swap c c' hne (align_refl s))

theorem ne_of_singleEdit {a b : Str} (h : SingleEdit a b) : a ≠ b := by
  cases h with
  | delete p c s =>
    intro hc
    have := congrArg List.length hc
    simp at this
  | insert p c s =>
    intro hc
    have := congrArg List.length hc
    simp at this
  | replace p c c' s hne =>
    intro hc
    have := List.append_cancel_left hc
    simp only [List.cons.injEq, and_true] at this
    exact hne this
  | swap p c c' s hne =>
    intro hc
    have := List.append_cancel_left hc
    simp only [List.cons.injEq, and_true] at this
    exact hne this.1

/-- C6 fails as stated: "ca" becomes "abc" by two single edits (swap the two letters,
then insert "b"), yet `levenshteinDistance("ca", "abc")` is 3. -/
theorem levenshteinDistance_not_minimal_counterexample :
    EditPath 2 "ca".toList "abc".toList
    ∧ levenshteinDistance "ca".toList "abc".toList = 3 :=
  ⟨EditPath.step (SingleEdit.swap [] 'c' 'a' [] (by decide))
      (EditPath.step (SingleEdit.insert ['a'] 'b' ['c']) (EditPath.done _)),
    by decide⟩

/-- C6, amended: `levenshteinDistance(a, b)` is the optimal string alignment distance.
It is the length of a sequence of single edits that transforms `a` into `b`, and it is the
minimum cost over the alignments of `a` with `b` by deletions, insertions, replacements
and swaps of two adjacent characters in which no character takes part in two operations. -/
theorem levenshteinDistance_is_optimal_alignment (a b : Str) :
    EditPath (levenshteinDistance a b) a b
    ∧ Align a b (levenshteinDistance a b)
    ∧ ∀ n, Align a b n → levenshteinDistance a b ≤ n := by
  rw [levenshteinDistance_eq_osa]
  exact ⟨editPath_of_align (align_osa a b), align_osa a b, fun n h => osa_le_of_align h⟩

/-- C6, amended, at "ca" and "abc": the alignment that replaces "c" by "a", "a" by "b"
and inserts "c" has cost 3, and the distance does not exceed it. -/
theorem levenshteinDistance_is_optimal_alignment_witness :
    Align "ca".toList "abc".toList 3
    ∧ levenshteinDistance "ca".toList "abc".toList ≤ 3 :=
  ⟨Align.replace 'c' 'a' (by decide) (Align.replace 'a' 'b' (by decide)
      (Align.insert 'c' Align.nil)),
    (levenshteinDistance_is_optimal_alignment "ca".toList "abc".toList).2.2 3
      (Align.replace 'c' 'a' (by decide) (Align.replace 'a' 'b' (by decide)
        (Align.insert 'c' Align.nil)))⟩

/-- C7: `levenshteinDistance(a, b)` is non-negative, and it is 0 exactly when `a = b`. -/
theorem levenshteinDistance_zero_iff (a b : Str) :
    0 ≤ levenshteinDistance a b ∧ (levenshteinDistance a b = 0 ↔ a = b) := by
  rw [levenshteinDistance_eq_osa]
  exact ⟨Nat.zero_le _, osa_eq_zero_iff a b⟩

/-- C8: `levenshteinDistance(a, b) = levenshteinDistance(b, a)` for all strings. -/
theorem levenshteinDistance_symmetric (a b : Str) :
    levenshteinDistance a b = levenshteinDistance b a := by
  rw [levenshteinDistance_eq_osa, levenshteinDistance_eq_osa, osa_symm]

/-- C9: if `q` is obtained from `W` by deleting one character, inserting one character,
replacing one character by a different one, or swapping two adjacent characters that
differ, then `levenshteinDistance(W, q) = 1`. -/
theorem levenshteinDistance_single_edit (W q : Str) (h : SingleEdit W q) :
    levenshteinDistance W q = 1 := by
  rw [levenshteinDistance_eq_osa]
  have h1 : osa W q ≤ 1 := osa_le_of_align (align_of_singleEdit h)
  have h2 : osa W q ≠ 0 := fun hc => ne_of_singleEdit h ((osa_eq_zero_iff W q).1 hc)
  omega

/-- C9 at the transposition named by the claim: the distance from "ab" to "ba" is 1. -/
theorem levenshteinDistance_single_edit_witness :
    levenshteinDistance "ab".toList "ba".toList = 1 :=
  levenshteinDistance_single_edit "ab".toList "ba".toList
    (SingleEdit.swap [] 'a' 'b' [] (by decide))

/-! ## Single-edit recall of the generator -/

theorem insertAt_deleteAt (s : Str) (i : Nat) (hi : i < s.length) :
    insertAt (deleteAt s i) i (s.getD i 'a') = s := by
  unfold insertAt deleteAt
  have hl : (s.take i).length = i := by rw [List.length_take]; omega
  rw [List.take_left' hl, List.drop_left' hl, List.getD_eq_getElem _ _ hi]
  rw [List.getElem_cons_drop _ _ hi, List.take_append_drop]

theorem deleteAt_insertAt (s : Str) (i : Nat) (c : Char) (hi : i ≤ s.length) :
    deleteAt (insertAt s i c) i = s := by
  unfold insertAt deleteAt
  have hl : (s.take i).length = i := by rw [List.length_take]; omega
  rw [List.take_left' hl]
  have : List.drop (i + 1) (s.take i ++ c :: s.drop i) = s.drop i := by
    have h2 : (s.take i ++ [c]).length = i + 1 := by simp [hl]
    rw [show s.take i ++ c :: s.drop i = (s.take i ++ [c]) ++ s.drop i by simp]
    exact List.drop_left' h2
  rw [this, List.take_append_drop]

theorem swapAt_swapAt (s : Str) (i : Nat) (hi : i + 1 < s.length) :
    swapAt (swapAt s i) i = s := by
  apply List.ext_getElem
  · simp [swapAt]
  · intro k h1 h2
    simp only [swapAt, List.getD_eq_getElem?_getD, List.getElem_set, List.getElem?_set,
      List.length_set]
    have h3 : i < s.length := by omega
    by_cases hk1 : i + 1 = k
    · subst hk1
      simp [h3, hi]
    · by_cases hk2 : i = k
      · subst hk2
        simp [h3, hi]
      · simp [hk1, hk2]

theorem set_set_getD (s : Str) (i : Nat) (c : Char) (hi : i < s.length) :
    (s.set i c).set i (s.getD i 'a') = s ∧ (s.set i c).getD i 'a' = c := by
  constructor
  · rw [List.set_set, List.getD_eq_getElem _ _ hi]
    apply List.ext_getElem
    · simp
    · intro k h1 h2
      rw [List.getElem_set]
      split
      next h => subst h; rfl
      next => rfl
  · rw [List.getD_eq_getElem _ _ (by simpa using hi), List.getElem_set_self]

theorem getD_mem (s : Str) (i : Nat) (hi : i < s.length) : s.getD i 'a' ∈ s := by
  rw [List.getD_eq_getElem _ _ hi]
  exact List.getElem_mem _

theorem self_mem_generateEdits (w : Str) (hw : w ≠ []) : w ∈ generateEdits w 2 := by
  refine (mem_generateEdits_two w hw w).2 (Or.inr ⟨insertAt w 0 'a', ?_, ?_⟩)
  · exact mem_firstPass.2 (Or.inr (Or.inr (Or.inr
      (mem_insertions.2 ⟨0, Nat.zero_le _, 'a', by decide, rfl⟩))))
  · refine mem_deletions.2 ⟨0, ?_, deleteAt_insertAt w 0 'a' (Nat.zero_le _)⟩
    rw [length_insertAt (Nat.zero_le _)]
    omega

/-- C10 fails as stated: the lowercase word "a" loses its only character by one
deletion, the query is then empty, and `generateEdits` returns nothing on an empty
word. -/
theorem single_edit_recall_counterexample :
    "a".toList ≠ [] ∧ (∀ c ∈ "a".toList, c ∈ alphabet)
    ∧ SingleEditQuery "a".toList []
    ∧ "a".toList ∉ generateEdits [] 2 := by
  refine ⟨by decide, by decide, Or.inl ⟨0, by decide, by decide⟩, ?_⟩
  rw [generateEdits_nil]
  exact List.not_mem_nil _

/-- C10, amended: for every non-empty lowercase word `W` and every non-empty query `q`
obtained from `W` by one deletion, one adjacent swap, one substitution by a lowercase
letter, or one insertion of a lowercase letter, `W` is an element of
`generateEdits(q, 2)`. -/
theorem single_edit_recall (W q : Str) (hW : W ≠ []) (hlow : ∀ c ∈ W, c ∈ alphabet)
    (hq : SingleEditQuery W q) (hne : q ≠ []) : W ∈ generateEdits q 2 := by
  rcases hq with ⟨i, hi, rfl⟩ | ⟨i, hi, rfl⟩ | ⟨i, c, hi, hc, rfl⟩ | ⟨i, c, hi, hc, rfl⟩
  · refine mem_generateEdits_of_firstPass hne (mem_firstPass.2 (Or.inr (Or.inr (Or.inr
      (mem_insertions.2 ⟨i, ?_, W.getD i 'a', hlow _ (getD_mem W i hi),
        insertAt_deleteAt W i hi⟩)))))
    have := length_deleteAt hi
    omega
  · refine mem_generateEdits_of_firstPass hne (mem_firstPass.2 (Or.inr (Or.inl
      (mem_transpositions.2 ⟨i, ?_, swapAt_swapAt W i hi⟩))))
    rw [length_swapAt]
    omega
  · by_cases hsame : c = W.getD i 'a'
    · have hq : W.set i c = W := by
        have := (set_set_getD W i c hi).1
        rw [List.set_set] at this
        rw [hsame]
        exact this
      rw [hq]
      exact self_mem_generateEdits W hW
    · refine mem_generateEdits_of_firstPass hne (mem_firstPass.2 (Or.inr (Or.inr (Or.inl
        (mem_substitutions.2 ⟨i, by simpa using hi, W.getD i 'a', hlow _ (getD_mem W i hi),
          ?_, (set_set_getD W i c hi).1⟩)))))
      rw [(set_set_getD W i c hi).2]
      exact hsame
  · refine mem_generateEdits_of_firstPass hne (mem_firstPass.2 (Or.inl
      (mem_deletions.2 ⟨i, ?_, deleteAt_insertAt W i c hi⟩)))
    rw [length_insertAt hi]
    omega

/-- C10, amended, at the word "hello" and the query "helo" (one deletion). -/
theorem single_edit_recall_witness : "hello".toList ∈ generateEdits "helo".toList 2 :=
  single_edit_recall "hello".toList "helo".toList (by decide) (by decide)
    (Or.inl ⟨2, by decide, by decide⟩) (by decide)

/-! ## Dictionary index: frequencies and size -/

theorem TrieNode.walkFrequency_fresh (w : Str) :
    TrieNode.walkFrequency TrieNode.fresh w = 0 := by
  cases w with
  | nil => rfl
  | cons c cs => simp [TrieNode.fresh, TrieNode.walkFrequency, mapFind]

theorem TrieNode.walkFrequency_insert (n : TrieNode) (w w' : Str) (f : Int) :
    TrieNode.walkFrequency (TrieNode.insert n w f) w'
      = if w' = w then f else TrieNode.walkFrequency n w' := by
  induction w generalizing n w' with
  | nil =>
    obtain ⟨ch, e, fr⟩ := n
    cases w' with
    | nil => simp [TrieNode.insert, TrieNode.walkFrequency]
    | cons c' cs' => simp [TrieNode.insert, TrieNode.walkFrequency]
  | cons c cs ih =>
    obtain ⟨ch, e, fr⟩ := n
    cases w' with
    | nil => simp [TrieNode.insert, TrieNode.walkFrequency]
    | cons c' cs' =>
      simp only [TrieNode.insert, TrieNode.walkFrequency, mapFind_mapSet]
      by_cases hc : c' = c
      · subst hc
        simp only [if_true, ih, List.cons.injEq, true_and]
        cases hf : mapFind ch c' with
        | none => simp [TrieNode.walkFrequency_fresh]
        | some n' => simp
      · simp [hc]

theorem TrieNode.walkFrequency_of_not_search (n : TrieNode) (w : Str)
    (h : TrieNode.search n w = false) : TrieNode.walkFrequency n w = 0 := by
  induction w generalizing n with
  | nil =>
    obtain ⟨ch, e, fr⟩ := n
    simp only [TrieNode.search] at h
    simp [TrieNode.walkFrequency, h]
  | cons c cs ih =>
    obtain ⟨ch, e, fr⟩ := n
    simp only [TrieNode.search] at h
    simp only [TrieNode.walkFrequency]
    cases hf : mapFind ch c with
    | none => rfl
    | some n' =>
      rw [hf] at h
      exact ih n' h

theorem lastFrequency_append (ops : List (Str × Int)) (op : Str × Int) (w : Str) :
    lastFrequency (ops ++ [op]) w
      = if op.1 = w then some op.2 else lastFrequency ops w := by
  induction ops with
  | nil => simp [lastFrequency]
  | cons o ops ih =>
    rw [List.cons_append, lastFrequency, ih]
    by_cases h : op.1 = w
    · simp [h]
    · rw [if_neg h, if_neg h, lastFrequency]

theorem lastFrequency_isSome (ops : List (Str × Int)) (w : Str) :
    (lastFrequency ops w).isSome = true ↔ w ∈ ops.map Prod.fst := by
  induction ops with
  | nil => simp [lastFrequency]
  | cons o ops ih =>
    simp only [lastFrequency, List.map_cons, List.mem_cons]
    cases hl : lastFrequency ops w with
    | none =>
      rw [hl] at ih
      simp only [Option.isSome_none, Bool.false_eq_true, false_iff] at ih
      by_cases h : o.1 = w
      · simp [h]
      · have h' : ¬ w = o.1 := fun hc => h hc.symm
        simp [h, h', ih]
    | some f =>
      rw [hl] at ih
      simp only [Option.isSome_some, true_iff] at ih
      simp [ih]

theorem Trie.build_append (ops : List (Str × Int)) (op : Str × Int) :
    Trie.build (ops ++ [op]) = Trie.insert (Trie.build ops) op.1 op.2 := by
  simp [Trie.build, List.foldl_append]

theorem Trie.mapFind_build (ops : List (Str × Int)) (w : Str) :
    mapFind (Trie.build ops).wordFrequency w = lastFrequency ops w := by
  induction ops using List.reverseRecOn with
  | nil => rfl
  | append_singleton ops op ih =>
    rw [Trie.build_append, lastFrequency_append]
    simp only [Trie.insert, mapFind_mapSet, ih]
    by_cases h : w = op.1
    · simp [h]
    · have h' : ¬ op.1 = w := fun hc => h hc.symm
      simp [h, h']

theorem Trie.walkFrequency_build (ops : List (Str × Int)) (w : Str) :
    TrieNode.walkFrequency (Trie.build ops).root w = (lastFrequency ops w).getD 0 := by
  induction ops using List.reverseRecOn with
  | nil => simp [Trie.build, Trie.empty, TrieNode.walkFrequency_fresh, lastFrequency]
  | append_singleton ops op ih =>
    rw [Trie.build_append, lastFrequency_append]
    simp only [Trie.insert, TrieNode.walkFrequency_insert, ih]
    by_cases h : w = op.1
    · simp [h]
    · have h' : ¬ op.1 = w := fun hc => h hc.symm
      simp [h, h']

theorem Trie.getFrequency_build (ops : List (Str × Int)) (w : Str) :
    Trie.getFrequency (Trie.build ops) w = (lastFrequency ops w).getD 0 := by
  unfold Trie.getFrequency
  rw [Trie.mapFind_build]
  cases h : lastFrequency ops w with
  | none => simp [Trie.walkFrequency_build, h]
  | some f => simp

theorem mapKeys_mapSet {κ ν : Type} [DecidableEq κ] (m : List (κ × ν)) (k : κ) (v : ν) :
    mapKeys (mapSet m k v) = if k ∈ mapKeys m then mapKeys m else mapKeys m ++ [k] := by
  induction m with
  | nil => simp [mapSet, mapKeys]
  | cons p m ih =>
    obtain ⟨k0, v0⟩ := p
    unfold mapSet
    by_cases h : k = k0
    · subst h
      simp [mapKeys]
    · have h' : ¬ k0 = k := fun hc => h hc.symm
      simp only [if_neg h]
      simp only [mapKeys, List.map_cons, List.mem_cons, h, false_or] at ih ⊢
      rw [ih]
      split <;> simp

theorem mem_mapKeys_iff {κ ν : Type} [DecidableEq κ] (m : List (κ × ν)) (k : κ) :
    k ∈ mapKeys m ↔ (mapFind m k).isSome = true := by
  induction m with
  | nil => simp [mapKeys, mapFind]
  | cons p m ih =>
    obtain ⟨k0, v0⟩ := p
    simp only [mapKeys, List.map_cons, List.mem_cons, mapFind] at ih ⊢
    by_cases h : k = k0
    · simp [h]
    · simp [h, ih]

theorem Trie.mapKeys_build_nodup (ops : List (Str × Int)) :
    (mapKeys (Trie.build ops).wordFrequency).Nodup := by
  induction ops using List.reverseRecOn with
  | nil => simp [Trie.build, Trie.empty, mapKeys]
  | append_singleton ops op ih =>
    rw [Trie.build_append]
    simp only [Trie.insert, mapKeys_mapSet]
    split
    · exact ih
    next hnot =>
      rw [List.nodup_append]
      refine ⟨ih, List.nodup_singleton _, ?_⟩
      intro a ha hb
      simp only [List.mem_singleton] at hb
      subst hb
      exact hnot ha

theorem Trie.mem_mapKeys_build (ops : List (Str × Int)) (w : Str) :
    w ∈ mapKeys (Trie.build ops).wordFrequency ↔ w ∈ ops.map Prod.fst := by
  rw [mem_mapKeys_iff, Trie.mapFind_build, lastFrequency_isSome]

theorem Trie.wordCount_build (ops : List (Str × Int)) :
    Trie.wordCount (Trie.build ops) = (ops.map Prod.fst).toFinset.card := by
  have h1 : Trie.wordCount (Trie.build ops)
      = (mapKeys (Trie.build ops).wordFrequency).length := by
    simp [Trie.wordCount, mapKeys]
  rw [h1, ← List.toFinset_card_of_nodup (Trie.mapKeys_build_nodup ops)]
  congr 1
  ext w
  simp only [List.mem_toFinset]
  exact Trie.mem_mapKeys_build ops w

theorem Trie.wordCount_insert (t : Trie) (w : Str) (f : Int) :
    Trie.wordCount (Trie.insert t w f)
      = if w ∈ mapKeys t.wordFrequency then Trie.wordCount t else Trie.wordCount t + 1 := by
  have h : Trie.wordCount (Trie.insert t w f)
      = (mapKeys (mapSet t.wordFrequency w f)).length := by
    simp [Trie.wordCount, Trie.insert, mapKeys]
  rw [h, mapKeys_mapSet]
  split <;> simp [Trie.wordCount, mapKeys]

/-- C14: after any sequence of inserts on a fresh trie, `search(w)` is true exactly when
`w` was the word of one of the inserts (empty string and proper prefixes included); and
on every trie, inserting `w` makes `search(w)` true and leaves `search(w')` unchanged for
every other `w'`. -/
theorem search_iff_inserted (ops : List (Str × Int)) (w : Str) :
    (Trie.search (Trie.build ops) w = true ↔ w ∈ ops.map Prod.fst)
    ∧ (∀ (t : Trie) (f : Int), Trie.search (Trie.insert t w f) w = true)
    ∧ (∀ (t : Trie) (f : Int) (w' : Str), w' ≠ w →
        Trie.search (Trie.insert t w f) w' = Trie.search t w') := by
  refine ⟨Trie.search_build ops w, fun t f => ?_, fun t f w' hne => ?_⟩
  · rw [Trie.search_after_insert]
    simp
  · rw [Trie.search_after_insert]
    simp [hne]

/-- C14 at the sequence `insert("help", 50)`, `insert("he", 3)`: "hel" is a proper prefix
that was never inserted and is not found, and inserting "help" into the trie holding
"he" leaves the search for "hel" unchanged. -/
theorem search_iff_inserted_witness :
    Trie.search (Trie.build [("help".toList, 50), ("he".toList, 3)]) "hel".toList = false
    ∧ Trie.search (Trie.insert (Trie.build [("he".toList, 3)]) "help".toList 50) "hel".toList
        = Trie.search (Trie.build [("he".toList, 3)]) "hel".toList :=
  ⟨by
      rw [← Bool.not_eq_true,
        (search_iff_inserted [("help".toList, 50), ("he".toList, 3)] "hel".toList).1]
      decide,
    (search_iff_inserted [] "help".toList).2.2 (Trie.build [("he".toList, 3)]) 50
      "hel".toList (by decide)⟩

/-- C15: after any sequence of inserts on a fresh trie, `getFrequency(w)` is the
frequency of the last insert whose word is `w`, and 0 if `w` was never inserted; and on
every trie, inserting `w` leaves `getFrequency(w')` unchanged for every other `w'`. -/
theorem getFrequency_last_assigned (ops : List (Str × Int)) (w : Str) :
    Trie.getFrequency (Trie.build ops) w = (lastFrequency ops w).getD 0
    ∧ (w ∉ ops.map Prod.fst → Trie.getFrequency (Trie.build ops) w = 0)
    ∧ (∀ (t : Trie) (f : Int) (w' : Str), w' ≠ w →
        Trie.getFrequency (Trie.insert t w f) w' = Trie.getFrequency t w') := by
  refine ⟨Trie.getFrequency_build ops w, fun hnot => ?_, fun t f w' hne => ?_⟩
  · rw [Trie.getFrequency_build]
    have : lastFrequency ops w = none := by
      have h := lastFrequency_isSome ops w
      cases hl : lastFrequency ops w with
      | none => rfl
      | some x =>
        rw [hl] at h
        exact absurd (h.1 rfl) hnot
    rw [this]
    rfl
  · unfold Trie.getFrequency
    simp only [Trie.insert, mapFind_mapSet, if_neg hne, TrieNode.walkFrequency_insert]

theorem TrieNode.nodeAt_of_search (n : TrieNode) (w : Str)
    (h : TrieNode.search n w = true) :
    ∃ ch, TrieNode.nodeAt n w = some (TrieNode.mk ch true (TrieNode.walkFrequency n w)) := by
  induction w generalizing n with
  | nil =>
    obtain ⟨ch, e, fr⟩ := n
    simp only [TrieNode.search] at h
    subst h
    exact ⟨ch, by simp [TrieNode.nodeAt, TrieNode.walkFrequency]⟩
  | cons c cs ih =>
    obtain ⟨ch, e, fr⟩ := n
    simp only [TrieNode.search] at h
    simp only [TrieNode.nodeAt, TrieNode.walkFrequency]
    cases hf : mapFind ch c with
    | none =>
      rw [hf] at h
      exact absurd h (by simp)
    | some n' =>
      rw [hf] at h
      exact ih n' h

/-- C15 at the sequence `insert("help", 50)`, `insert("he", 3)`, `insert("help", 7)`:
the never-inserted prefix "hel" has frequency 0, and inserting "help" into a trie does not
change the frequency of "he". -/
theorem getFrequency_last_assigned_witness :
    Trie.getFrequency
        (Trie.build [("help".toList, 50), ("he".toList, 3), ("help".toList, 7)]) "hel".toList
      = 0
    ∧ Trie.getFrequency (Trie.insert (Trie.build [("he".toList, 3)]) "help".toList 7)
        "he".toList
      = Trie.getFrequency (Trie.build [("he".toList, 3)]) "he".toList :=
  ⟨(getFrequency_last_assigned
      [("help".toList, 50), ("he".toList, 3), ("help".toList, 7)] "hel".toList).2.1
      (by decide),
    (getFrequency_last_assigned [] "help".toList).2.2 (Trie.build [("he".toList, 3)]) 7
      "he".toList (by decide)⟩

/-- C16: after any sequence of inserts on a fresh trie, `wordCount()` is the number of
distinct words inserted; inserting a word that is a member leaves `wordCount()` unchanged
whatever the frequency, and inserting a non-member increases it by exactly one. -/
theorem wordCount_distinct (ops : List (Str × Int)) (w : Str) (f : Int) :
    Trie.wordCount (Trie.build ops) = (ops.map Prod.fst).toFinset.card
    ∧ (Trie.search (Trie.build ops) w = true →
        Trie.wordCount (Trie.insert (Trie.build ops) w f) = Trie.wordCount (Trie.build ops))
    ∧ (Trie.search (Trie.build ops) w = false →
        Trie.wordCount (Trie.insert (Trie.build ops) w f)
          = Trie.wordCount (Trie.build ops) + 1) := by
  refine ⟨Trie.wordCount_build ops, fun h => ?_, fun h => ?_⟩
  · rw [Trie.wordCount_insert, if_pos]
    rw [Trie.mem_mapKeys_build]
    exact (Trie.search_build ops w).1 h
  · rw [Trie.wordCount_insert, if_neg]
    rw [Trie.mem_mapKeys_build]
    intro hc
    rw [(Trie.search_build ops w).2 hc] at h
    exact Bool.noConfusion h

/-- C16 at the sequence `insert("help", 50)`, `insert("he", 3)`: inserting "help" again
with frequency 7 keeps the count, inserting the new word "hel" adds one. -/
theorem wordCount_distinct_witness :
    Trie.wordCount
        (Trie.insert (Trie.build [("help".toList, 50), ("he".toList, 3)]) "help".toList 7)
      = Trie.wordCount (Trie.build [("help".toList, 50), ("he".toList, 3)])
    ∧ Trie.wordCount
        (Trie.insert (Trie.build [("help".toList, 50), ("he".toList, 3)]) "hel".toList 7)
      = Trie.wordCount (Trie.build [("help".toList, 50), ("he".toList, 3)]) + 1 :=
  ⟨(wordCount_distinct [("help".toList, 50), ("he".toList, 3)] "help".toList 7).2.1
      (by decide),
    (wordCount_distinct [("help".toList, 50), ("he".toList, 3)] "hel".toList 7).2.2
      (by decide)⟩

/-- C20: after any sequence of inserts on a fresh trie, `w` is a key of the
`wordFrequency` map exactly when `search(w)` is true; the value stored for a key equals
the frequency field of the terminal node reached by `w`; and when `w` is not a key, the
trie walk at the end of `getFrequency` returns 0. -/
theorem frequency_stores_consistent (ops : List (Str × Int)) (w : Str) :
    (w ∈ mapKeys (Trie.build ops).wordFrequency ↔ Trie.search (Trie.build ops) w = true)
    ∧ (∀ f, mapFind (Trie.build ops).wordFrequency w = some f →
        ∃ ch, TrieNode.nodeAt (Trie.build ops).root w = some (TrieNode.mk ch true f))
    ∧ (mapFind (Trie.build ops).wordFrequency w = none →
        TrieNode.walkFrequency (Trie.build ops).root w = 0) := by
  refine ⟨?_, fun f hf => ?_, fun hnone => ?_⟩
  · rw [Trie.mem_mapKeys_build, Trie.search_build]
  · have hkey : w ∈ mapKeys (Trie.build ops).wordFrequency := by
      rw [mem_mapKeys_iff, hf]
      rfl
    have hs : Trie.search (Trie.build ops) w = true := by
      rw [Trie.search_build, ← Trie.mem_mapKeys_build]
      exact hkey
    obtain ⟨ch, hch⟩ := TrieNode.nodeAt_of_search _ _ hs
    refine ⟨ch, ?_⟩
    rw [hch, Trie.walkFrequency_build, ← Trie.mapFind_build, hf]
    rfl
  · rw [Trie.walkFrequency_build, ← Trie.mapFind_build, hnone]
    rfl

/-- C20 at the sequence `insert("help", 50)`, `insert("he", 3)`, `insert("help", 7)`: the
map holds 7 for "help" and so does the terminal node of "help"; "hel" is not a key and the
trie walk returns 0 for it. -/
theorem frequency_stores_consistent_witness :
    (∃ ch, TrieNode.nodeAt
        (Trie.build [("help".toList, 50), ("he".toList, 3), ("help".toList, 7)]).root
        "help".toList = some (TrieNode.mk ch true 7))
    ∧ TrieNode.walkFrequency
        (Trie.build [("help".toList, 50), ("he".toList, 3), ("help".toList, 7)]).root
        "hel".toList = 0 :=
  ⟨(frequency_stores_consistent
      [("help".toList, 50), ("he".toList, 3), ("help".toList, 7)] "help".toList).2.1 7
      (by decide),
    (frequency_stores_consistent
      [("help".toList, 50), ("he".toList, 3), ("help".toList, 7)] "hel".toList).2.2
      (by decide)⟩

/-! ## Edit candidate generator: the reference set -/

theorem insertAt_eq_insertIdx (s : Str) (i : Nat) (c : Char) (hi : i ≤ s.length) :
    insertAt s i c = s.insertIdx i c := by
  induction s generalizing i with
  | nil =>
    have : i = 0 := by simpa using hi
    subst this
    rfl
  | cons x s ih =>
    cases i with
    | zero => rfl
    | succ i =>
      have := ih i (by simpa using hi)
      simp only [insertAt, List.take_succ_cons, List.drop_succ_cons, List.cons_append,
        List.insertIdx_succ_cons] at this ⊢
      rw [this]

theorem swapAt_eq_swapAdjacent (s : Str) (i : Nat) (hi : i + 1 < s.length) :
    swapAt s i = swapAdjacent s i := by
  induction s generalizing i with
  | nil => simp at hi
  | cons x s ih =>
    cases i with
    | zero =>
      cases s with
      | nil => simp at hi
      | cons y s => simp [swapAt, swapAdjacent]
    | succ i =>
      have := ih i (by simpa using hi)
      simp only [swapAt, List.set_cons_succ, List.getD_cons_succ, swapAdjacent] at this ⊢
      rw [this]

theorem mem_alphabet_iff (c : Char) : c ∈ alphabet ↔ 'a' ≤ c ∧ c ≤ 'z' := by
  constructor
  · intro h
    simp only [alphabet, List.mem_cons, List.mem_singleton, List.not_mem_nil, or_false] at h
    rcases h with h | h | h | h | h | h | h | h | h | h | h | h | h | h | h | h | h | h | h | h | h | h | h | h | h | h <;> subst h <;> decide
  · rintro ⟨h1, h2⟩
    have e : c = Char.ofNat c.toNat := (Char.ofNat_toNat c).symm
    have h1' : 97 ≤ c.toNat := h1
    have h2' : c.toNat ≤ 122 := h2
    rw [e]
    generalize c.toNat = n at h1' h2'
    interval_cases n <;> decide

theorem deleteAt_eq_eraseIdx (s : Str) (i : Nat) : deleteAt s i = s.eraseIdx i :=
  (List.eraseIdx_eq_take_drop_succ s i).symm

theorem mem_firstPass_iff_E1 (w x : Str) : x ∈ firstPass w ↔ E1 w x := by
  rw [mem_firstPass, mem_deletions, mem_transpositions, mem_substitutions, mem_insertions]
  unfold E1
  constructor
  · rintro (⟨i, hi, rfl⟩ | ⟨i, hi, rfl⟩ | ⟨i, hi, c, hc, hne, rfl⟩ | ⟨i, hi, c, hc, rfl⟩)
    · exact Or.inl ⟨i, hi, deleteAt_eq_eraseIdx w i⟩
    · exact Or.inr (Or.inl ⟨i, by omega, swapAt_eq_swapAdjacent w i (by omega)⟩)
    · refine Or.inr (Or.inr (Or.inl ⟨i, c, hi, (mem_alphabet_iff c).1 hc, ?_, rfl⟩))
      intro hsome
      apply hne
      rw [List.getD_eq_getElem?_getD, hsome]
      rfl
    · exact Or.inr (Or.inr (Or.inr
        ⟨i, c, hi, (mem_alphabet_iff c).1 hc, insertAt_eq_insertIdx w i c hi⟩))
  · rintro (⟨i, hi, rfl⟩ | ⟨i, hi, rfl⟩ | ⟨i, c, hi, hc, hne, rfl⟩ | ⟨i, c, hi, hc, rfl⟩)
    · exact Or.inl ⟨i, hi, deleteAt_eq_eraseIdx w i⟩
    · exact Or.inr (Or.inl ⟨i, by omega, swapAt_eq_swapAdjacent w i hi⟩)
    · refine Or.inr (Or.inr (Or.inl ⟨i, hi, c, (mem_alphabet_iff c).2 hc, ?_, rfl⟩))
      intro hget
      apply hne
      rw [List.getElem?_eq_getElem hi, ← hget, List.getD_eq_getElem _ _ hi]
    · exact Or.inr (Or.inr (Or.inr
        ⟨i, hi, c, (mem_alphabet_iff c).2 hc, insertAt_eq_insertIdx w i c hi⟩))

theorem mem_generateEdits_one (w : Str) (hw : w ≠ []) (x : Str) :
    x ∈ generateEdits w 1 ↔ x ∈ firstPass w := by
  rw [generateEdits_one w hw, mem_addAll inv_initial]
  simp

/-- C11: for every non-empty word `w`, the elements of `generateEdits(w, 1)` are exactly
the strings of the reference set `E1(w)`, and the elements of `generateEdits(w, 2)` are
exactly the strings of `E1(w)` together with the single-character deletions of the
strings of `E1(w)`. -/
theorem generateEdits_reference_set (w : Str) (hw : w ≠ []) :
    (∀ x, x ∈ generateEdits w 1 ↔ E1 w x)
    ∧ (∀ x, x ∈ generateEdits w 2 ↔
        E1 w x ∨ ∃ e, E1 w e ∧ ∃ j, j < e.length ∧ x = e.eraseIdx j) := by
  constructor
  · intro x
    rw [mem_generateEdits_one w hw, mem_firstPass_iff_E1]
  · intro x
    rw [mem_generateEdits_two w hw, mem_firstPass_iff_E1]
    constructor
    · rintro (h | ⟨e, he, hx⟩)
      · exact Or.inl h
      · obtain ⟨j, hj, rfl⟩ := mem_deletions.1 hx
        exact Or.inr ⟨e, (mem_firstPass_iff_E1 w e).1 he, j, hj,
          deleteAt_eq_eraseIdx e j⟩
    · rintro (h | ⟨e, he, j, hj, rfl⟩)
      · exact Or.inl h
      · exact Or.inr ⟨e, (mem_firstPass_iff_E1 w e).2 he,
          mem_deletions.2 ⟨j, hj, deleteAt_eq_eraseIdx e j⟩⟩

/-- C11 at the word "ab": "b" (a deletion) is generated at distance 1, and "c" (the
deletion of "a" from the substitution "ac") is generated at distance 2. -/
theorem generateEdits_reference_set_witness :
    "b".toList ∈ generateEdits "ab".toList 1 ∧ "c".toList ∈ generateEdits "ab".toList 2 :=
  ⟨((generateEdits_reference_set "ab".toList (by decide)).1 "b".toList).2
      (Or.inl ⟨0, by decide, by decide⟩),
    ((generateEdits_reference_set "ab".toList (by decide)).2 "c".toList).2
      (Or.inr ⟨"ac".toList,
        Or.inr (Or.inr (Or.inl ⟨1, 'c', by decide, by decide, by decide, by decide⟩)),
        0, by decide, by decide⟩)⟩

/-- C12: the list returned by `generateEdits(w, maxDistance)` contains each string at
most once, for every word and every `maxDistance`. -/
theorem generateEdits_no_duplicates (w : Str) (maxDistance : Int) :
    (generateEdits w maxDistance).Nodup :=
  generateEdits_nodup w maxDistance

/-! ## Generated candidates are within the distance bound -/

theorem align_eraseIdx_target {xs ys : Str} {n : Nat} (h : Align xs ys n) :
    ∀ j, j < ys.length → ∃ m, m ≤ n + 1 ∧ Align xs (ys.eraseIdx j) m := by
  induction h with
  | nil =>
    intro j hj
    simp at hj
  | delete x _ ih =>
    intro j hj
    obtain ⟨m, hm, ha⟩ := ih j hj
    exact ⟨m + 1, by omega, Align.delete x ha⟩
  | @insert y xs ys n h ih =>
    intro j hj
    cases j with
    | zero => exact ⟨n, by omega, by simpa using h⟩
    | succ j =>
      obtain ⟨m, hm, ha⟩ := ih j (by simpa using hj)
      exact ⟨m + 1, by omega, by simpa using Align.insert y ha⟩
  | @keep x xs ys n h ih =>
    intro j hj
    cases j with
    | zero => exact ⟨n + 1, by omega, by simpa using Align.delete x h⟩
    | succ j =>
      obtain ⟨m, hm, ha⟩ := ih j (by simpa using hj)
      exact ⟨m, by omega, by simpa using Align.keep x ha⟩
  | @replace x y xs ys n hxy h ih =>
    intro j hj
    cases j with
    | zero => exact ⟨n + 1, by omega, by simpa using Align.delete x h⟩
    | succ j =>
      obtain ⟨m, hm, ha⟩ := ih j (by simpa using hj)
      exact ⟨m + 1, by omega, by simpa using Align.replace x y hxy ha⟩
  | @swap x y xs ys n hxy h ih =>
    intro j hj
    cases j with
    | zero => exact ⟨n + 1, by omega, by simpa using Align.keep x (Align.delete y h)⟩
    | succ j =>
      cases j with
      | zero => exact ⟨n + 1, by omega, by simpa using Align.delete x (Align.keep y h)⟩
      | succ j =>
        obtain ⟨m, hm, ha⟩ := ih j (by simpa using hj)
        exact ⟨m + 1, by omega, by simpa using Align.swap x y hxy ha⟩

theorem align_eraseIdx (w : Str) (i : Nat) (hi : i < w.length) : Align w (w.eraseIdx i) 1 := by
  induction w generalizing i with
  | nil => simp at hi
  | cons x s ih =>
    cases i with
    | zero => simpa using Align.delete x (align_refl s)
    | succ i => simpa using Align.keep x (ih i (by simpa using hi))

theorem align_insertIdx (w : Str) (i : Nat) (c : Char) (hi : i ≤ w.length) :
    Align w (w.insertIdx i c) 1 := by
  induction w generalizing i with
  | nil =>
    have : i = 0 := by simpa using hi
    subst this
    simpa using Align.insert c Align.nil
  | cons x s ih =>
    cases i with
    | zero => simpa using Align.insert c (align_refl (x :: s))
    | succ i =>
      simpa [List.insertIdx_succ_cons] using Align.keep x (ih i (by simpa using hi))

theorem align_set (w : Str) (i : Nat) (c : Char) : ∃ m, m ≤ 1 ∧ Align w (w.set i c) m := by
  induction w generalizing i with
  | nil => exact ⟨0, by omega, by simpa using Align.nil⟩
  | cons x s ih =>
    cases i with
    | zero =>
      refine ⟨0 + if x = c then 0 else 1, ?_, ?_⟩
      · split <;> omega
      · simpa using align_match_or_replace x c (align_refl s)
    | succ i =>
      obtain ⟨m, hm, ha⟩ := ih i
      exact ⟨m, hm, by simpa using Align.keep x ha⟩

theorem align_swapAdjacent (w : Str) (i : Nat) :
    ∃ m, m ≤ 1 ∧ Align w (swapAdjacent w i) m := by
  induction w generalizing i with
  | nil => exact ⟨0, by omega, by simpa [swapAdjacent] using Align.nil⟩
  | cons x s ih =>
    cases i with
    | zero =>
      cases s with
      | nil => exact ⟨0, by omega, by simpa [swapAdjacent] using align_refl [x]⟩
      | cons y s =>
        refine ⟨0 + if x = y then 0 else 1, ?_, ?_⟩
        · split <;> omega
        · simpa [swapAdjacent] using align_swap_or_keep x y (align_refl s)
    | succ i =>
      obtain ⟨m, hm, ha⟩ := ih i
      exact ⟨m, hm, by simpa [swapAdjacent] using Align.keep x ha⟩

theorem align_of_E1 {w x : Str} (h : E1 w x) : ∃ m, m ≤ 1 ∧ Align w x m := by
  rcases h with ⟨i, hi, rfl⟩ | ⟨i, hi, rfl⟩ | ⟨i, c, hi, -, -, rfl⟩ | ⟨i, c, hi, -, rfl⟩
  · exact ⟨1, by omega, align_eraseIdx w i hi⟩
  · exact align_swapAdjacent w i
  · exact align_set w i c
  · exact ⟨1, by omega, align_insertIdx w i c hi⟩

theorem osa_le_one_of_mem_generateEdits {w c : Str} (h : c ∈ generateEdits w 1) :
    osa w c ≤ 1 := by
  by_cases hw : w = []
  · subst hw
    simp [generateEdits_nil] at h
  · obtain ⟨m, hm, ha⟩ :=
      align_of_E1 ((mem_firstPass_iff_E1 w c).1 ((mem_generateEdits_one w hw c).1 h))
    exact (osa_le_of_align ha).trans hm

theorem osa_le_two_of_mem_generateEdits {w c : Str} (h : c ∈ generateEdits w 2) :
    osa w c ≤ 2 := by
  by_cases hw : w = []
  · subst hw
    simp [generateEdits_nil] at h
  · rcases (mem_generateEdits_two w hw c).1 h with h | ⟨e, he, hc⟩
    · obtain ⟨m, hm, ha⟩ := align_of_E1 ((mem_firstPass_iff_E1 w c).1 h)
      exact (osa_le_of_align ha).trans (by omega)
    · obtain ⟨m, hm, ha⟩ := align_of_E1 ((mem_firstPass_iff_E1 w e).1 he)
      obtain ⟨j, hj, rfl⟩ := mem_deletions.1 hc
      obtain ⟨k, hk, hb⟩ := align_eraseIdx_target ha j hj
      rw [deleteAt_eq_eraseIdx]
      exact (osa_le_of_align hb).trans (by omega)

/-- C13: every element `c` of `generateEdits(w, 2)` has `levenshteinDistance(w, c) ≤ 2`,
and every element `c` of `generateEdits(w, 1)` has `levenshteinDistance(w, c) ≤ 1`. -/
theorem generateEdits_within_distance (w : Str) :
    (∀ c ∈ generateEdits w 2, levenshteinDistance w c ≤ 2)
    ∧ (∀ c ∈ generateEdits w 1, levenshteinDistance w c ≤ 1) := by
  constructor
  · intro c hc
    rw [levenshteinDistance_eq_osa]
    exact osa_le_two_of_mem_generateEdits hc
  · intro c hc
    rw [levenshteinDistance_eq_osa]
    exact osa_le_one_of_mem_generateEdits hc

/-- C13 at the word "ab": the candidate "c" of the second pass is within distance 2 and
the candidate "b" of the first pass is within distance 1. -/
theorem generateEdits_within_distance_witness :
    levenshteinDistance "ab".toList "c".toList ≤ 2
    ∧ levenshteinDistance "ab".toList "b".toList ≤ 1 :=
  ⟨(generateEdits_within_distance "ab".toList).1 "c".toList
      ((mem_generateEdits_two "ab".toList (by decide) "c".toList).2
        (Or.inr ⟨"ac".toList,
          mem_firstPass.2 (Or.inr (Or.inr (Or.inl
            (mem_substitutions.2 ⟨1, by decide, 'c', by decide, by decide, by decide⟩)))),
          mem_deletions.2 ⟨0, by decide, by decide⟩⟩)),
    (generateEdits_within_distance "ab".toList).2 "b".toList
      ((mem_generateEdits_one "ab".toList (by decide) "b".toList).2
        (mem_firstPass.2 (Or.inl (mem_deletions.2 ⟨0, by decide, by decide⟩))))⟩

/-! ## Incomplete recall at distance 2 -/

theorem correctSpelling_sentinel_of_no_survivor (t : Trie) (w : Str) (m : Int)
    (hnot : Trie.search t w = false)
    (hnone : ∀ c ∈ generateEdits w 2, Trie.search t c = false) :
    correctSpelling t w m = [noSuggestion] := by
  rw [correctSpelling_of_not_member _ _ _ hnot]
  have : (generateEdits w 2).filter (Trie.search t) = [] := by
    rw [List.filter_eq_nil_iff]
    intro c hc
    simp [hnone c hc]
  rw [this]
  simp [drain]

set_option maxRecDepth 100000 in
theorem cd_not_mem_ab : "cd".toList ∉ generateEdits "ab".toList 2 := by
  intro h
  rcases (mem_generateEdits_two _ (by decide) _).1 h with h | ⟨e, he, hx⟩
  · revert h
    decide
  · have hall : ∀ e ∈ firstPass "ab".toList, "cd".toList ∉ deletions e := by decide
    exact hall e he hx

/-- C17: there are lowercase words `w` and `t`, here "ab" and "cd", with `t` obtained
from `w` by two substitutions and `levenshteinDistance(w, t) = 2`, such that `t` is not
an element of `generateEdits(w, 2)`; and the dictionary holding only `t` makes
`correctSpelling(dict, w)` return the no-suggestion sentinel. -/
theorem incomplete_distance_two_recall :
    ∃ w t : Str,
      (∀ c ∈ w, c ∈ alphabet) ∧ (∀ c ∈ t, c ∈ alphabet)
      ∧ t = (w.set 0 'c').set 1 'd'
      ∧ levenshteinDistance w t = 2
      ∧ t ∉ generateEdits w 2
      ∧ correctSpelling (Trie.build [(t, 1)]) w 5 = [noSuggestion] := by
  refine ⟨"ab".toList, "cd".toList, by decide, by decide, by decide, by decide,
    cd_not_mem_ab, ?_⟩
  refine correctSpelling_sentinel_of_no_survivor _ _ _ (by decide) ?_
  intro c hc
  rw [← Bool.not_eq_true, Trie.search_build]
  intro hm
  simp only [List.map_cons, List.map_nil, List.mem_singleton] at hm
  subst hm
  exact cd_not_mem_ab hc

/-! ## Well-formed suggestion lists -/

theorem extractTop_collect_eq (t : Trie) (w : Str) (k : Nat) :
    extractTop (collectSuggestions t w (generateEdits w 2)).length
        (collectSuggestions t w (generateEdits w 2)) [] k
      = ((drain ((generateEdits w 2).filter (Trie.search t)).length
            (((generateEdits w 2).filter (Trie.search t)).map (mkSuggestion t w))).take
          k).map Suggestion.word := by
  rw [collectSuggestions_eq, extractTop_eq]
  simp

theorem survivors_ne_nil_of_branch (t : Trie) (w : Str) (k : Nat)
    (h : extractTop (collectSuggestions t w (generateEdits w 2)).length
        (collectSuggestions t w (generateEdits w 2)) [] k ≠ []) :
    (generateEdits w 2).filter (Trie.search t) ≠ [] := by
  intro hS
  apply h
  rw [extractTop_collect_eq, hS]
  simp [drain]

theorem branch_of_survivor (t : Trie) (w : Str) (k : Nat) (hk : 0 < k) {c : Str}
    (hc : c ∈ generateEdits w 2) (hs : Trie.search t c = true) :
    extractTop (collectSuggestions t w (generateEdits w 2)).length
        (collectSuggestions t w (generateEdits w 2)) [] k ≠ [] := by
  rw [extractTop_collect_eq]
  intro h
  have h1 := congrArg List.length h
  have h2 := drain_length (((generateEdits w 2).filter (Trie.search t)).map (mkSuggestion t w))
  simp only [List.length_map] at h2
  simp only [List.length_map, List.length_take, h2, List.length_nil] at h1
  have : 0 < ((generateEdits w 2).filter (Trie.search t)).length :=
    List.length_pos_of_mem (List.mem_filter.2 ⟨hc, hs⟩)
  omega

theorem correctSpelling_nodup_of_survivor (t : Trie) (w : Str) (m : Int)
    (hnot : Trie.search t w = false) (hm : 0 < toSizeT m)
    (hS : (generateEdits w 2).filter (Trie.search t) ≠ []) :
    (correctSpelling t w m).Nodup := by
  rw [correctSpelling_of_survivor t w m hnot hm hS, List.map_take]
  refine List.Nodup.sublist (List.take_sublist _ _) ?_
  have hperm := (drain_perm _ _ (by simp) :
    List.Perm (drain ((generateEdits w 2).filter (Trie.search t)).length
      (((generateEdits w 2).filter (Trie.search t)).map (mkSuggestion t w)))
      (((generateEdits w 2).filter (Trie.search t)).map (mkSuggestion t w)))
  have hwords : (((generateEdits w 2).filter (Trie.search t)).map (mkSuggestion t w)).map
      Suggestion.word = (generateEdits w 2).filter (Trie.search t) := by
    rw [List.map_map]
    have : (Suggestion.word ∘ mkSuggestion t w) = id := by
      funext c
      rfl
    rw [this, List.map_id]
  have hnd : ((generateEdits w 2).filter (Trie.search t)).Nodup :=
    (generateEdits_nodup w 2).filter _
  rw [(hperm.map Suggestion.word).nodup_iff, hwords]
  exact hnd

/-- C19: for a dictionary built by inserts, a query that is not a member and
`1 ≤ maxResults`, if `correctSpelling` does not take the no-suggestion branch (the
extracted `results` are not empty) then the returned words are pairwise distinct, each is
a member of the dictionary, none equals the query, and each is at
`levenshteinDistance` 1 or 2 from the query. -/
theorem suggestion_list_well_formed (ops : List (Str × Int)) (inputWord : Str)
    (maxResults : Int)
    (hnot : Trie.search (Trie.build ops) inputWord = false)
    (h1 : 1 ≤ maxResults) (h2 : maxResults < 2 ^ 31)
    (hbranch : extractTop
        (collectSuggestions (Trie.build ops) inputWord (generateEdits inputWord 2)).length
        (collectSuggestions (Trie.build ops) inputWord (generateEdits inputWord 2)) []
        (toSizeT maxResults) ≠ []) :
    (correctSpelling (Trie.build ops) inputWord maxResults).Nodup
    ∧ ∀ c ∈ correctSpelling (Trie.build ops) inputWord maxResults,
        Trie.search (Trie.build ops) c = true ∧ c ≠ inputWord
        ∧ (levenshteinDistance inputWord c = 1 ∨ levenshteinDistance inputWord c = 2) := by
  have hm : 0 < toSizeT maxResults := toSizeT_pos _ (by omega) (by omega) h2
  have hS := survivors_ne_nil_of_branch _ _ _ hbranch
  refine ⟨correctSpelling_nodup_of_survivor _ _ _ hnot hm hS, fun c hc => ?_⟩
  obtain ⟨hgen, hsearch⟩ := mem_correctSpelling_of_survivor _ _ _ hnot hm hS c hc
  have hne : c ≠ inputWord := by
    intro h
    rw [h, hnot] at hsearch
    exact Bool.noConfusion hsearch
  refine ⟨hsearch, hne, ?_⟩
  rw [levenshteinDistance_eq_osa]
  have hle := osa_le_two_of_mem_generateEdits hgen
  have hz : osa inputWord c ≠ 0 := fun h => hne ((osa_eq_zero_iff _ _).1 h).symm
  omega

/-- C19 at the dictionary built by inserting "b" (7), "c" (9) and "ab" (3), queried with
"a" and `maxResults = 2`. -/
theorem suggestion_list_well_formed_witness :
    (correctSpelling (Trie.build [("b".toList, 7), ("c".toList, 9), ("ab".toList, 3)])
        "a".toList 2).Nodup
    ∧ ∀ c ∈ correctSpelling (Trie.build [("b".toList, 7), ("c".toList, 9), ("ab".toList, 3)])
        "a".toList 2,
        Trie.search (Trie.build [("b".toList, 7), ("c".toList, 9), ("ab".toList, 3)]) c = true
        ∧ c ≠ "a".toList
        ∧ (levenshteinDistance "a".toList c = 1 ∨ levenshteinDistance "a".toList c = 2) :=
  suggestion_list_well_formed [("b".toList, 7), ("c".toList, 9), ("ab".toList, 3)]
    "a".toList 2 (by decide) (by decide) (by decide)
    (branch_of_survivor _ _ _ (by decide) (c := "b".toList)
      (mem_generateEdits_of_firstPass (by decide)
        (mem_firstPass.2 (Or.inr (Or.inr (Or.inl
          (mem_substitutions.2 ⟨0, by decide, 'b', by decide, by decide, by decide⟩))))))
      (by decide))

/-! ## The transposition cost -/

theorem cellSpec_le_keep (s1 s2 : Str) (i j : Nat) (hi : i < s1.length) (hj : j < s2.length)
    (h : s1.getD i 'a' = s2.getD j 'a') :
    cellSpec s1 s2 (i + 1) (j + 1) ≤ cellSpec s1 s2 i j := by
  unfold cellSpec
  rw [reverse_take_succ s1 i hi, reverse_take_succ s2 j hj, h]
  exact osa_le_keep _ _ _

theorem cellSpec_succ_std (s1 s2 : Str) (i j : Nat) (hi : i < s1.length)
    (hj : j < s2.length) :
    cellSpec s1 s2 (i + 1) (j + 1) =
      if 0 < i ∧ 0 < j ∧ s1.getD i 'a' = s2.getD (j - 1) 'a'
          ∧ s1.getD (i - 1) 'a' = s2.getD j 'a' then
        min (min (min (cellSpec s1 s2 i (j + 1) + 1) (cellSpec s1 s2 (i + 1) j + 1))
          (cellSpec s1 s2 i j + if s1.getD i 'a' = s2.getD j 'a' then 0 else 1))
          (cellSpec s1 s2 (i - 1) (j - 1) + 1)
      else
        min (min (cellSpec s1 s2 i (j + 1) + 1) (cellSpec s1 s2 (i + 1) j + 1))
          (cellSpec s1 s2 i j + if s1.getD i 'a' = s2.getD j 'a' then 0 else 1) := by
  rw [cellSpec_succ s1 s2 i j hi hj]
  split
  next hc =>
    obtain ⟨hi0, hj0, h1, h2⟩ := hc
    by_cases hcost : s1.getD i 'a' = s2.getD j 'a'
    · have hkeep : cellSpec s1 s2 i j ≤ cellSpec s1 s2 (i - 1) (j - 1) := by
        obtain ⟨i', rfl⟩ : ∃ i', i = i' + 1 := ⟨i - 1, by omega⟩
        obtain ⟨j', rfl⟩ : ∃ j', j = j' + 1 := ⟨j - 1, by omega⟩
        simp only [Nat.add_sub_cancel] at h1 h2 ⊢
        exact cellSpec_le_keep s1 s2 i' j' (by omega) (by omega)
          (h2.trans (hcost.symm.trans h1))
      simp only [hcost, if_true]
      omega
    · simp only [hcost, if_false]
  next => rfl

theorem cellStepStd_spec (s1 s2 : Str) (i j : Nat) (hi : i < s1.length)
    (hj : j < s2.length) (d : Table) (h : TableInv s1 s2 (i + 1) (j + 1) d) :
    TableInv s1 s2 (i + 1) (j + 2) (cellStepStd s1 s2 d (i + 1) (j + 1)) := by
  obtain ⟨hs, hv⟩ := h
  have e1 : Table.get d i (j + 1) = cellSpec s1 s2 i (j + 1) :=
    hv _ _ (by omega) (by omega) (by unfold Done; omega)
  have e2 : Table.get d (i + 1) j = cellSpec s1 s2 (i + 1) j :=
    hv _ _ (by omega) (by omega) (by unfold Done; omega)
  have e3 : Table.get d i j = cellSpec s1 s2 i j :=
    hv _ _ (by omega) (by omega) (by unfold Done; omega)
  have e4 : Table.get d (i - 1) (j - 1) = cellSpec s1 s2 (i - 1) (j - 1) :=
    hv _ _ (by omega) (by omega) (by unfold Done; omega)
  have hval : Table.get (cellStepStd s1 s2 d (i + 1) (j + 1)) (i + 1) (j + 1)
      = cellSpec s1 s2 (i + 1) (j + 1)
      ∧ Table.Shape (cellStepStd s1 s2 d (i + 1) (j + 1)) s1.length s2.length
      ∧ ∀ i' j', ¬ (i' = i + 1 ∧ j' = j + 1) →
          Table.get (cellStepStd s1 s2 d (i + 1) (j + 1)) i' j' = Table.get d i' j' := by
    rw [cellSpec_succ_std s1 s2 i j hi hj]
    unfold cellStepStd
    simp only [Nat.add_sub_cancel, Nat.reduceSubDiff, gt_iff_lt, Nat.lt_add_left_iff_pos]
    have hs1 := Table.shape_set hs (i + 1) (j + 1)
      (min (min (Table.get d i (j + 1) + 1) (Table.get d (i + 1) j + 1))
        (Table.get d i j + if s1.getD i 'a' = s2.getD j 'a' then 0 else 1))
    have g1 : ∀ v, Table.get (Table.set d (i + 1) (j + 1) v) (i + 1) (j + 1) = v := by
      intro v
      rw [Table.get_set hs (by omega) (by omega), if_pos ⟨rfl, rfl⟩]
    have g2 : ∀ v, Table.get (Table.set d (i + 1) (j + 1) v) (i - 1) (j - 1)
        = Table.get d (i - 1) (j - 1) := by
      intro v
      rw [Table.get_set hs (by omega) (by omega), if_neg (by omega)]
    split
    next hc =>
      refine ⟨?_, Table.shape_set hs1 _ _ _, fun i' j' hne => ?_⟩
      · rw [Table.get_set hs1 (by omega) (by omega) _ (i + 1) (j + 1), if_pos ⟨rfl, rfl⟩,
          g1, g2, e1, e2, e3, e4]
      · rw [Table.get_set hs1 (by omega) (by omega), if_neg hne,
          Table.get_set hs (by omega) (by omega), if_neg hne]
    next hc =>
      refine ⟨?_, hs1, fun i' j' hne => ?_⟩
      · rw [g1, e1, e2, e3]
      · rw [Table.get_set hs (by omega) (by omega), if_neg hne]
  refine ⟨hval.2.1, fun i' j' hi' hj' hd => ?_⟩
  rcases (done_succ _ _ _ _).1 hd with hd | ⟨rfl, rfl⟩
  · rw [hval.2.2 i' j' (by unfold Done at hd; omega)]
    exact hv i' j' hi' hj' hd
  · exact hval.1

theorem fillTableStd_spec (s1 s2 : Str) (d : Table) (h : TableInv s1 s2 1 1 d) :
    TableInv s1 s2 (s1.length + 1) 1 (fillTableStd s1 s2 d) := by
  unfold fillTableStd
  refine foldl_range'_invariant (fun k d => TableInv s1 s2 (k + 1) 1 d) _ s1.length d h ?_
  intro i d hi hp
  have hrow := foldl_range'_invariant (fun k d => TableInv s1 s2 (i + 1) (k + 1) d)
    (fun d j => cellStepStd s1 s2 d (i + 1) j) s2.length d hp
    (fun j d hj hq => cellStepStd_spec s1 s2 i j hi hj d hq)
  refine ⟨hrow.1, fun i' j' hi' hj' hd => hrow.2 i' j' hi' hj' ?_⟩
  unfold Done at hd ⊢
  omega

theorem levenshteinDistanceStd_eq_osa (s1 s2 : Str) :
    levenshteinDistanceStd s1 s2 = osa s1 s2 := by
  unfold levenshteinDistanceStd
  have h := fillTableStd_spec s1 s2 _ (tableInv_init s1 s2)
  rw [h.2 s1.length s2.length (Nat.le_refl _) (Nat.le_refl _) (by unfold Done; omega)]
  unfold cellSpec
  rw [List.take_length, List.take_length, osa_reverse]

/-- C18: for all strings `a` and `b`, `levenshteinDistance(a, b)`, whose transposition
step adds `cost`, equals the value of the same dynamic program with the transposition
relaxation `d[i-2][j-2] + 1`, the standard optimal-string-alignment distance. -/
theorem levenshteinDistance_eq_standard (a b : Str) :
    levenshteinDistance a b = levenshteinDistanceStd a b := by
  rw [levenshteinDistance_eq_osa, levenshteinDistanceStd_eq_osa]

end SymSpell
